import Mathlib

/-!
Verification development for the ori-pluginapi repository.

The definitions below are a shallow embedding of the Go sources:

* the file-type matcher (`IsFileTypeAccepted`, `toLower`, `lastIndex` from
  the pluginapi package),
* the YAML tool-definition schema compiler (`ToToolDefinition`,
  `buildParameterSchema`, `buildParametersSchema`, `addParameterDefinitions`,
  `sortedOperationNames` from tool_definition.go),
* the parameter validators (`ValidateToolParameters`,
  `ValidateToolParametersWithOperations`, `isMissingParam`, `isMissingValue`,
  `ValidateYAMLToolDefinition`, `validateParameter`),
* the server-side gRPC dispatcher (`grpcServer` methods from rpc_protocol.go)
  together with the optional capability interfaces of the plugin API.

Go strings handled byte-wise by the matcher are modelled as `List Char`
(the matcher only rewrites ASCII letters, and a dot byte can never occur
inside a multi-byte UTF-8 sequence, so the byte-wise and character-wise
readings agree). Go maps are modelled as association lists; where Go
iterates a map in unspecified order the model fixes the list order, which
is noted at each such spot. Go `error` results become an explicit error
datatype with one constructor per `fmt.Errorf` site, each carrying the
same data that the corresponding format string interpolates.
-/

namespace Pluginapi

/-! ### File-type matcher (IsFileTypeAccepted and its byte helpers) -/

/-- Embedding of the Go helper `toLower` on a single byte: ASCII upper-case
letters are shifted into lower case (`c += a - A`, that is `+ 32`),
everything else is untouched. -/
def toLowerChar (c : Char) : Char :=
  if 'A' ≤ c ∧ c ≤ 'Z' then Char.ofNat (c.toNat + 32) else c

/-- Embedding of the Go helper `toLower` (byte-wise lower-casing). -/
def toLower (s : List Char) : List Char :=
  s.map toLowerChar

/-- The suffix of `filename` that starts at the last occurrence of a dot;
`[]` when the name contains no dot. This combines the Go helper
`lastIndex(filename, dot)` with the slice `filename[idx:]` taken in
`IsFileTypeAccepted`. -/
def suffixFromLastDot : List Char → List Char
  | [] => []
  | c :: cs =>
    if '.' ∈ cs then suffixFromLastDot cs
    else if c = '.' then c :: cs
    else []

/-- Embedding of `IsFileTypeAccepted` from the pluginapi package: an empty
accept list rejects; otherwise each (lower-cased) entry either starts with a
dot and is compared with the lower-cased filename extension, or is compared
with the lower-cased declared MIME type. The Go loop with early `return
true` is `List.any`. -/
def IsFileTypeAccepted (acceptedTypes : List (List Char))
    (filename mimeType : List Char) : Bool :=
  if acceptedTypes.isEmpty then false
  else
    let ext := toLower (suffixFromLastDot filename)
    let mt := toLower mimeType
    acceptedTypes.any fun a =>
      let accepted := toLower a
      if accepted.head? = some '.' then ext == accepted else mt == accepted


/-! ### Data model of the YAML tool definitions (tool.go, plugin config)

Dynamic Go values (`interface\x7b\x7d`) reaching the validators are modelled
by `GoVal`; the type switch in `isMissingValue` distinguishes exactly the
dynamic types float64, float32, int and int64, which the model keeps as
separate tags over exact numbers (equality with zero is exact in both
readings). -/

/-- A dynamic Go value as seen by the validators: JSON-decoded argument
values and YAML default values. `other` stands for any dynamic type the
validators do not inspect (slices, maps, structs, ...). -/
inductive GoVal where
  | null
  | str (s : String)
  | float64 (q : ℚ)
  | float32 (q : ℚ)
  | int (n : Int)
  | int64 (n : Int)
  | boolean (b : Bool)
  | other
deriving DecidableEq

/-- A value stored in a compiled JSON-schema node
(`map[string]interface\x7b\x7d` in Go). The compiler stores strings, ints
(after the Go `int(...)` coercion), floats, string lists, dynamic default
values and nested schema objects; `valList` mirrors a Go
`[]interface\x7b\x7d` as handled by `extractRequired`. -/
inductive SchemaVal where
  | str (s : String)
  | int (n : Int)
  | rat (q : ℚ)
  | strList (l : List String)
  | valList (l : List GoVal)
  | goVal (v : GoVal)
  | node (m : List (String × SchemaVal))

/-- A compiled JSON-schema object: Go `map[string]interface\x7b\x7d`,
modelled as an association list accessed through `List.lookup`. -/
abbrev Schema := List (String × SchemaVal)

/-- A call argument map, Go `map[string]interface\x7b\x7d`. -/
abbrev Params := List (String × GoVal)

/-- Embedding of the Go struct `Tool` (tool.go). -/
structure Tool where
  name : String
  description : String
  parameters : Schema

/-- One error constructor per `fmt.Errorf` site of tool_definition.go.
`paramWrap` and `nestedPropertyWrap` are the `parameter %q: %w` and
`nested property %q: %w` wrappings. -/
inductive ToolErr where
  | nilToolDefinition
  | nameRequired
  | descriptionRequired
  | parameterNameRequired
  | typeRequired
  | enumRequiresValues
  | arrayRequiresItems
  | unsupportedType (t : String)
  | nestedPropertyWrap (name : String) (e : ToolErr)
  | paramWrap (name : String) (e : ToolErr)
  | conflictingTypes (name t1 t2 : String)
  | operationParamRequired
  | requiredFieldMissing (name : String)
  | unknownOperation (name : String)
  | nilToolDefinitionValidate
  | toolNameRequired
  | toolNameTooLong (n : Nat)
  | toolDescriptionRequired
  | toolDescriptionTooLong (n : Nat)
  | atLeastOneParameter
  | invalidParamType (name t : String)
  | paramDescriptionRequired (name : String)
  | enumRequiresValuesFor (name : String)
  | enumDefaultNotString (name : String)
  | enumDefaultNotInEnum (name dflt : String)
  | arrayRequiresItemsFor (name : String)
  | minGreaterThanMax (name : String) (mn mx : ℚ)
  | minLengthGreaterThanMaxLength (name : String) (mn mx : Int)
  | operationParamMustBeString
  | operationParamMustBeRequired
  | operationNameEmpty
  | operationEnumMissingValue (op : String)
deriving DecidableEq

/-- Embedding of the Go struct `YAMLToolParameter` (an inductive rather
than a structure because the `object` type nests parameter maps). The Go
field `Items *struct\x7bType string\x7d` is modelled as `Option String`
holding the item type. -/
inductive YAMLToolParameter where
  | mk
    (name : String)
    (type : String)
    (description : String)
    (required : Bool)
    (default : Option GoVal)
    (enum : List String)
    (items : Option String)
    (properties : List (String × YAMLToolParameter))
    (min : Option ℚ)
    (max : Option ℚ)
    (minLength : Option Int)
    (maxLength : Option Int)
    (pattern : String)

def YAMLToolParameter.name : YAMLToolParameter → String
  | .mk v _ _ _ _ _ _ _ _ _ _ _ _ => v

def YAMLToolParameter.type : YAMLToolParameter → String
  | .mk _ v _ _ _ _ _ _ _ _ _ _ _ => v

def YAMLToolParameter.description : YAMLToolParameter → String
  | .mk _ _ v _ _ _ _ _ _ _ _ _ _ => v

def YAMLToolParameter.required : YAMLToolParameter → Bool
  | .mk _ _ _ v _ _ _ _ _ _ _ _ _ => v

def YAMLToolParameter.default : YAMLToolParameter → Option GoVal
  | .mk _ _ _ _ v _ _ _ _ _ _ _ _ => v

def YAMLToolParameter.enum : YAMLToolParameter → List String
  | .mk _ _ _ _ _ v _ _ _ _ _ _ _ => v

def YAMLToolParameter.items : YAMLToolParameter → Option String
  | .mk _ _ _ _ _ _ v _ _ _ _ _ _ => v

def YAMLToolParameter.properties : YAMLToolParameter → List (String × YAMLToolParameter)
  | .mk _ _ _ _ _ _ _ v _ _ _ _ _ => v

def YAMLToolParameter.min : YAMLToolParameter → Option ℚ
  | .mk _ _ _ _ _ _ _ _ v _ _ _ _ => v

def YAMLToolParameter.max : YAMLToolParameter → Option ℚ
  | .mk _ _ _ _ _ _ _ _ _ v _ _ _ => v

def YAMLToolParameter.minLength : YAMLToolParameter → Option Int
  | .mk _ _ _ _ _ _ _ _ _ _ v _ _ => v

def YAMLToolParameter.maxLength : YAMLToolParameter → Option Int
  | .mk _ _ _ _ _ _ _ _ _ _ _ v _ => v

def YAMLToolParameter.pattern : YAMLToolParameter → String
  | .mk _ _ _ _ _ _ _ _ _ _ _ _ v => v

/-- The enum update `opParam.Enum = operationNames` performed by
`ToToolDefinition` when auto-deriving the operation enum. -/
def YAMLToolParameter.withEnum : YAMLToolParameter → List String → YAMLToolParameter
  | .mk n t d r df _ it pr mn mx mnl mxl pt, e => .mk n t d r df e it pr mn mx mnl mxl pt

/-- A convenience constructor for parameters that only set name, type,
description and requiredness (all remaining Go fields at their zero
values), used in concrete instantiations. -/
def mkParam (name type description : String) (required : Bool) : YAMLToolParameter :=
  .mk name type description required none [] none [] none none none none ""

/-- Embedding of the Go struct `YAMLOperationDefinition`. -/
structure YAMLOperationDefinition where
  parameters : List YAMLToolParameter

/-- Embedding of the Go struct `YAMLToolDefinition`; the Go map
`Operations map[string]YAMLOperationDefinition` is an association list. -/
structure YAMLToolDefinition where
  name : String
  description : String
  parameters : List YAMLToolParameter
  operations : List (String × YAMLOperationDefinition)

/-! ### Schema compiler (tool_definition.go) -/

/-- The Go coercion `int(f)` of a float64: truncation toward zero. -/
def truncQ (q : ℚ) : Int :=
  if 0 ≤ q then ⌊q⌋ else ⌈q⌉

/-- Entry conditionally placed in a schema object (a Go `if cond \x7b
schema[key] = v \x7d`). -/
def optEntry (b : Bool) (key : String) (v : SchemaVal) : Schema :=
  if b then [(key, v)] else []

/-- The `default` entry when a default value is present. -/
def defaultEntry (d : Option GoVal) : Schema :=
  match d with
  | some v => [("default", .goVal v)]
  | none => []

/-- Assignment `m[k] = v` on a Go map modelled as an association list:
replace the existing binding in place, or append a new one. -/
def mapInsert (m : List (String × α)) (k : String) (v : α) : List (String × α) :=
  if (m.lookup k).isSome then
    m.map fun kv => if kv.1 = k then (k, v) else kv
  else m ++ [(k, v)]

mutual

/-- Embedding of `buildParameterSchema` (tool_definition.go): the per-type
switch producing one JSON-schema node. The `name` argument is kept from the
Go signature (it is not read, as in the source). In the `object` case the
Go code iterates the `Properties` map in unspecified order; the model uses
the association-list order. -/
def buildParameterSchema (name : String) (p : YAMLToolParameter) : Except ToolErr Schema :=
  match p with
  | .mk _ t d _ df en it pr mn mx mnl mxl pt =>
    if t = "" then .error .typeRequired
    else
      match t with
      | "string" =>
        .ok ([("type", .str "string")]
          ++ optEntry (d ≠ "") "description" (.str d)
          ++ defaultEntry df
          ++ optEntry (en ≠ []) "enum" (.strList en)
          ++ (match mnl with | some v => [("minLength", .int v)] | none => [])
          ++ (match mxl with | some v => [("maxLength", .int v)] | none => [])
          ++ optEntry (pt ≠ "") "pattern" (.str pt))
      | "integer" =>
        .ok ([("type", .str "integer")]
          ++ optEntry (d ≠ "") "description" (.str d)
          ++ defaultEntry df
          ++ (match mn with | some v => [("minimum", .int (truncQ v))] | none => [])
          ++ (match mx with | some v => [("maximum", .int (truncQ v))] | none => []))
      | "number" =>
        .ok ([("type", .str "number")]
          ++ optEntry (d ≠ "") "description" (.str d)
          ++ defaultEntry df
          ++ (match mn with | some v => [("minimum", .rat v)] | none => [])
          ++ (match mx with | some v => [("maximum", .rat v)] | none => []))
      | "boolean" =>
        .ok ([("type", .str "boolean")]
          ++ optEntry (d ≠ "") "description" (.str d)
          ++ defaultEntry df)
      | "enum" =>
        if en = [] then .error .enumRequiresValues
        else
          .ok ([("type", .str "string")]
            ++ optEntry (d ≠ "") "description" (.str d)
            ++ [("enum", .strList en)]
            ++ defaultEntry df)
      | "array" =>
        match it with
        | none => .error .arrayRequiresItems
        | some itemType =>
          if itemType = "" then .error .arrayRequiresItems
          else
            .ok ([("type", .str "array")]
              ++ optEntry (d ≠ "") "description" (.str d)
              ++ [("items", .node [("type", .str itemType)])]
              ++ defaultEntry df)
      | "object" =>
        match buildNestedProperties pr with
        | .error e => .error e
        | .ok (nestedProps, nestedRequired) =>
          .ok ([("type", .str "object")]
            ++ optEntry (d ≠ "") "description" (.str d)
            ++ (if pr.isEmpty then []
                else
                  [("properties", .node nestedProps)]
                  ++ optEntry (nestedRequired ≠ []) "required" (.strList nestedRequired))
            ++ defaultEntry df)
      | _ => .error (.unsupportedType t)

/-- The loop in the `object` case of `buildParameterSchema`: build each
nested property schema (errors wrapped as `nested property %q: %w`) and
collect the names of the required nested properties. -/
def buildNestedProperties :
    List (String × YAMLToolParameter) → Except ToolErr (Schema × List String)
  | [] => .ok ([], [])
  | (pn, pp) :: rest =>
    match buildParameterSchema pn pp with
    | .error e => .error (.nestedPropertyWrap pn e)
    | .ok s =>
      match buildNestedProperties rest with
      | .error e => .error e
      | .ok (props, req) =>
        .ok ((pn, .node s) :: props, (if pp.required then [pn] else []) ++ req)

end

/-- The loop body of `buildParametersSchema` with its two accumulators (the
properties map and the ordered required list). -/
def buildParametersSchemaAux (properties : Schema) (required : List String) :
    List YAMLToolParameter → Except ToolErr (Schema × List String)
  | [] => .ok (properties, required)
  | p :: rest =>
    if p.name = "" then .error .parameterNameRequired
    else
      match buildParameterSchema p.name p with
      | .error e => .error (.paramWrap p.name e)
      | .ok s =>
        buildParametersSchemaAux (mapInsert properties p.name (.node s))
          (if p.required then required ++ [p.name] else required) rest

/-- Embedding of `buildParametersSchema` (tool_definition.go). -/
def buildParametersSchema (params : List YAMLToolParameter) :
    Except ToolErr (Schema × List String) :=
  buildParametersSchemaAux [] [] params

/-- Embedding of `addParameterDefinitions` (tool_definition.go): fold the
parameter list into the union map, failing on a name that reappears with a
different type. -/
def addParameterDefinitions (all : List (String × YAMLToolParameter)) :
    List YAMLToolParameter → Except ToolErr (List (String × YAMLToolParameter))
  | [] => .ok all
  | p :: rest =>
    if p.name = "" then .error .parameterNameRequired
    else
      match all.lookup p.name with
      | some existing =>
        if existing.type ≠ p.type then
          .error (.conflictingTypes p.name existing.type p.type)
        else addParameterDefinitions all rest
      | none => addParameterDefinitions (all ++ [(p.name, p)]) rest

/-- Embedding of `containsString` (tool_definition.go). -/
def containsString (list : List String) (value : String) : Bool :=
  list.any (· == value)

/-- Lexicographic comparison of character lists, the order used by the Go
`sort.Strings` (byte-wise comparison; on UTF-8 data byte order and
code-point order coincide). -/
def charListLe : List Char → List Char → Bool
  | [], _ => true
  | _ :: _, [] => false
  | a :: as, b :: bs =>
    if a < b then true else if b < a then false else charListLe as bs

/-- Lexicographic string comparison (Go `<` on strings). -/
def stringLeB (a b : String) : Bool :=
  charListLe a.toList b.toList

/-- Embedding of `sortedOperationNames` (tool_definition.go): the map keys
in ascending order (`sort.Strings`; modelled with an insertion sort over
the lexicographic order, extensionally the same function). -/
def sortedOperationNames (operations : List (String × YAMLOperationDefinition)) :
    List String :=
  if operations.isEmpty then []
  else (operations.map Prod.fst).insertionSort fun a b => stringLeB a b = true

/-- The loop of `ToToolDefinition` that folds every operation (in sorted
name order) into the union parameter map. The Go map index
`y.Operations[opName]` is total for names drawn from the key set; the model
uses `getD` with the zero value. -/
def unionOpsParams (all : List (String × YAMLToolParameter)) :
    List String → List (String × YAMLOperationDefinition) →
      Except ToolErr (List (String × YAMLToolParameter))
  | [], _ => .ok all
  | n :: rest, ops =>
    match addParameterDefinitions all ((ops.lookup n).getD ⟨[]⟩).parameters with
    | .error e => .error e
    | .ok all2 => unionOpsParams all2 rest ops

/-- Steps 1 and 2 of the operation branch of `ToToolDefinition`: union of
the base parameter list and every operation parameter list. -/
def unionAllParams (baseParams : List YAMLToolParameter)
    (operationNames : List String)
    (ops : List (String × YAMLOperationDefinition)) :
    Except ToolErr (List (String × YAMLToolParameter)) :=
  match addParameterDefinitions [] baseParams with
  | .error e => .error e
  | .ok base => unionOpsParams base operationNames ops

/-- The enum auto-derivation step of `ToToolDefinition` (lines 77-81): when
the union map holds an `operation` parameter without an explicit enum, its
enum becomes the sorted operation names. -/
def deriveOperationEnum (all : List (String × YAMLToolParameter))
    (operationNames : List String) : List (String × YAMLToolParameter) :=
  match all.lookup "operation" with
  | some opParam =>
    if opParam.enum.isEmpty then
      mapInsert all "operation" (opParam.withEnum operationNames)
    else all
  | none => all

/-- The properties-building loop of `ToToolDefinition` (lines 83-90) over
the union map; Go iterates the map in unspecified order, the model uses the
association-list order, and wraps errors as `parameter %q: %w`. -/
def buildPropertiesFromAll :
    List (String × YAMLToolParameter) → Except ToolErr Schema
  | [] => .ok []
  | (n, p) :: rest =>
    match buildParameterSchema n p with
    | .error e => .error (.paramWrap n e)
    | .ok s =>
      match buildPropertiesFromAll rest with
      | .error e => .error e
      | .ok props => .ok ((n, .node s) :: props)

/-- The final schema assembly of `ToToolDefinition`: type, properties and
(only when non-empty) the required list. -/
def buildObjectSchema (properties : Schema) (required : List String) : Schema :=
  [("type", .str "object"), ("properties", .node properties)]
    ++ (if required.isEmpty then [] else [("required", .strList required)])

/-- Embedding of `ToToolDefinition` (tool_definition.go): flat branch when
no operations are declared, otherwise the flattened-union branch. -/
def ToToolDefinition (y? : Option YAMLToolDefinition) : Except ToolErr Tool :=
  match y? with
  | none => .error .nilToolDefinition
  | some y =>
    if y.name = "" then .error .nameRequired
    else if y.description = "" then .error .descriptionRequired
    else if y.operations.isEmpty then
      match buildParametersSchema y.parameters with
      | .error e => .error e
      | .ok (properties, required) =>
        .ok ⟨y.name, y.description, buildObjectSchema properties required⟩
    else
      let operationNames := sortedOperationNames y.operations
      match unionAllParams y.parameters operationNames y.operations with
      | .error e => .error e
      | .ok allParams0 =>
        let allParams := deriveOperationEnum allParams0 operationNames
        match buildPropertiesFromAll allParams with
        | .error e => .error e
        | .ok properties =>
          match buildParametersSchema y.parameters with
          | .error e => .error e
          | .ok (_, globalRequired) =>
            if (allParams.lookup "operation").isNone then
              .error .operationParamRequired
            else
              let required :=
                if containsString globalRequired "operation" then globalRequired
                else globalRequired ++ ["operation"]
              .ok ⟨y.name, y.description, buildObjectSchema properties required⟩

/-! ### Parameter validators (tool_definition.go) -/

/-- Embedding of `extractProperties`: the `properties` entry when it is a
schema object, `none` otherwise. -/
def extractProperties (schema : Schema) : Option Schema :=
  match schema.lookup "properties" with
  | some (.node m) => some m
  | _ => none

/-- Embedding of `extractRequired`: the `required` entry as a string list
(`[]string` as-is, `[]interface\x7b\x7d` filtered to its strings, anything
else or absence giving the empty list). -/
def extractRequired (schema : Schema) : List String :=
  match schema.lookup "required" with
  | some (.strList l) => l
  | some (.valList l) =>
    l.filterMap fun x => match x with | .str s => some s | _ => none
  | _ => []

/-- Embedding of `isMissingValue`: nil is missing; under a string-typed
property the empty string is missing; under an integer- or number-typed
property any numeric dynamic value equal to zero is missing. -/
def isMissingValue (name : String) (value : GoVal) (properties : Option Schema) : Bool :=
  match value with
  | .null => true
  | _ =>
    let prop : Schema :=
      match properties with
      | some ps => match ps.lookup name with | some (.node m) => m | _ => []
      | none => []
    let paramType : String :=
      match prop.lookup "type" with | some (.str s) => s | _ => ""
    if paramType = "string" then
      match value with
      | .str s => s == ""
      | _ => false
    else if paramType = "integer" ∨ paramType = "number" then
      match value with
      | .float64 q => q == 0
      | .float32 q => q == 0
      | .int n => n == 0
      | .int64 n => n == 0
      | _ => false
    else false

/-- Embedding of `validateRequiredParams`. -/
def validateRequiredParams (required : List String) (properties : Option Schema)
    (params : Params) : Except ToolErr Unit :=
  match required with
  | [] => .ok ()
  | n :: rest =>
    match params.lookup n with
    | none => .error (.requiredFieldMissing n)
    | some v =>
      if isMissingValue n v properties then .error (.requiredFieldMissing n)
      else validateRequiredParams rest properties params

/-- Embedding of `ValidateToolParameters` (a nil schema validates). -/
def ValidateToolParameters (schema : Option Schema) (params : Params) :
    Except ToolErr Unit :=
  match schema with
  | none => .ok ()
  | some s => validateRequiredParams (extractRequired s) (extractProperties s) params

/-- Embedding of `isMissingParam`: absence and nil are missing, and for a
string-typed parameter so is the empty string. -/
def isMissingParam (param : YAMLToolParameter) (params : Params) : Bool :=
  match params.lookup param.name with
  | none => true
  | some v =>
    match v with
    | .null => true
    | _ =>
      if param.type = "string" then
        match v with
        | .str s => s == ""
        | _ => false
      else false

/-- Embedding of `findParameter` (tool_definition.go). -/
def findParameter : List YAMLToolParameter → String → Option YAMLToolParameter
  | [], _ => none
  | p :: rest, name => if p.name = name then some p else findParameter rest name

/-- The required-parameter loop shared by the flat branch (lines 350-356)
and the operation-specific loop (lines 390-396) of
`ValidateToolParametersWithOperations`: the two Go loops have identical
bodies. -/
def checkRequiredParams : List YAMLToolParameter → Params → Except ToolErr Unit
  | [], _ => .ok ()
  | p :: rest, params =>
    if p.required then
      if isMissingParam p params then .error (.requiredFieldMissing p.name)
      else checkRequiredParams rest params
    else checkRequiredParams rest params

/-- The global-required loop of the operation branch (lines 381-387), which
skips the parameter named `operation`. -/
def checkGlobalParams : List YAMLToolParameter → Params → Except ToolErr Unit
  | [], _ => .ok ()
  | p :: rest, params =>
    if p.required ∧ p.name ≠ "operation" then
      if isMissingParam p params then .error (.requiredFieldMissing p.name)
      else checkGlobalParams rest params
    else checkGlobalParams rest params

/-- The tail of `ValidateToolParametersWithOperations` once the operation
definition (possibly the zero value) is fixed: global required parameters
first, then the operation-specific required parameters. -/
def validateWithOpDef (td : YAMLToolDefinition) (opDef : YAMLOperationDefinition)
    (params : Params) : Except ToolErr Unit :=
  match checkGlobalParams td.parameters params with
  | .error e => .error e
  | .ok _ => checkRequiredParams opDef.parameters params

/-- Embedding of `ValidateToolParametersWithOperations`
(tool_definition.go). -/
def ValidateToolParametersWithOperations (toolDef? : Option YAMLToolDefinition)
    (params : Params) : Except ToolErr Unit :=
  match toolDef? with
  | none => .ok ()
  | some td =>
    if td.operations.isEmpty then checkRequiredParams td.parameters params
    else
      match params.lookup "operation" with
      | some (.str operation) =>
        if operation = "" then .error (.requiredFieldMissing "operation")
        else
          match td.operations.lookup operation with
          | some opDef => validateWithOpDef td opDef params
          | none =>
            match findParameter td.parameters "operation" with
            | some operationParam =>
              if ¬operationParam.enum.isEmpty then
                if containsString operationParam.enum operation then
                  validateWithOpDef td ⟨[]⟩ params
                else .error (.unknownOperation operation)
              else .error (.unknownOperation operation)
            | none => .error (.unknownOperation operation)
      | _ => .error (.requiredFieldMissing "operation")

/-! ### Definition validation (ValidateYAMLToolDefinition) -/

mutual

/-- Embedding of `validateParameter` (tool_definition.go). The Go argument
named like the English word for a leading string is called `pfx` here
(same role: dotted path of the enclosing object parameters). -/
def validateParameter (name : String) (p : YAMLToolParameter) (pfx : String) :
    Except ToolErr Unit :=
  match p with
  | .mk _ t d _ df en it pr mn mx mnl mxl _ =>
    let fullName := if pfx = "" then name else pfx ++ "." ++ name
    if ¬(t = "string" ∨ t = "integer" ∨ t = "number" ∨ t = "boolean" ∨
          t = "enum" ∨ t = "array" ∨ t = "object") then
      .error (.invalidParamType fullName t)
    else if d = "" then .error (.paramDescriptionRequired fullName)
    else
      match t with
      | "enum" =>
        if en = [] then .error (.enumRequiresValuesFor fullName)
        else
          match df with
          | none => .ok ()
          | some dv =>
            match dv with
            | .str ds =>
              if containsString en ds then .ok ()
              else .error (.enumDefaultNotInEnum fullName ds)
            | _ => .error (.enumDefaultNotString fullName)
      | "array" =>
        match it with
        | none => .error (.arrayRequiresItemsFor fullName)
        | some itemType =>
          if itemType = "" then .error (.arrayRequiresItemsFor fullName)
          else .ok ()
      | "object" => validateNestedParameters pr fullName
      | "integer" =>
        match mn, mx with
        | some a, some b =>
          if a > b then .error (.minGreaterThanMax fullName a b) else .ok ()
        | _, _ => .ok ()
      | "number" =>
        match mn, mx with
        | some a, some b =>
          if a > b then .error (.minGreaterThanMax fullName a b) else .ok ()
        | _, _ => .ok ()
      | "string" =>
        match mnl, mxl with
        | some a, some b =>
          if a > b then .error (.minLengthGreaterThanMaxLength fullName a b)
          else .ok ()
        | _, _ => .ok ()
      | _ => .ok ()

/-- The loop of the `object` case of `validateParameter`; Go iterates the
properties map in unspecified order, the model uses list order. -/
def validateNestedParameters :
    List (String × YAMLToolParameter) → String → Except ToolErr Unit
  | [], _ => .ok ()
  | (pn, pp) :: rest, fullName =>
    match validateParameter pn pp fullName with
    | .error e => .error e
    | .ok _ => validateNestedParameters rest fullName

end

/-- One pass of the parameter-validation loop of
`ValidateYAMLToolDefinition` (used for the base list and for each
operation list): empty-name check, `validateParameter`, and the
conflicting-type check against the running `paramTypes` map. -/
def validateParamsLoop (paramTypes : List (String × String)) :
    List YAMLToolParameter → Except ToolErr (List (String × String))
  | [] => .ok paramTypes
  | p :: rest =>
    if p.name = "" then .error .parameterNameRequired
    else
      match validateParameter p.name p "" with
      | .error e => .error e
      | .ok _ =>
        match paramTypes.lookup p.name with
        | some existingType =>
          if existingType ≠ p.type then
            .error (.conflictingTypes p.name existingType p.type)
          else validateParamsLoop (mapInsert paramTypes p.name p.type) rest
        | none => validateParamsLoop (mapInsert paramTypes p.name p.type) rest

/-- The empty-operation-name check loop (Go iterates the operations map in
unspecified order; the model uses list order). -/
def checkOperationNamesLoop :
    List (String × YAMLOperationDefinition) → Except ToolErr Unit
  | [] => .ok ()
  | (n, _) :: rest =>
    if n = "" then .error .operationNameEmpty else checkOperationNamesLoop rest

/-- The loop checking an explicitly declared operation enum covers every
operation key (map order determinized to list order). -/
def checkEnumCoversOps (enum : List String) :
    List (String × YAMLOperationDefinition) → Except ToolErr Unit
  | [] => .ok ()
  | (n, _) :: rest =>
    if ¬containsString enum n then .error (.operationEnumMissingValue n)
    else checkEnumCoversOps enum rest

/-- The final loop of `ValidateYAMLToolDefinition` validating every
operation parameter list (map order determinized to list order). -/
def validateOpsParams (paramTypes : List (String × String)) :
    List (String × YAMLOperationDefinition) →
      Except ToolErr (List (String × String))
  | [] => .ok paramTypes
  | (_, od) :: rest =>
    match validateParamsLoop paramTypes od.parameters with
    | .error e => .error e
    | .ok pt2 => validateOpsParams pt2 rest

/-- Embedding of `ValidateYAMLToolDefinition` (tool_definition.go). The Go
length checks `len(...)` count bytes of the UTF-8 representation, which is
`String.utf8ByteSize`. -/
def ValidateYAMLToolDefinition (toolDef? : Option YAMLToolDefinition) :
    Except ToolErr Unit :=
  match toolDef? with
  | none => .error .nilToolDefinitionValidate
  | some td =>
    if td.name = "" then .error .toolNameRequired
    else if td.name.utf8ByteSize > 64 then
      .error (.toolNameTooLong td.name.utf8ByteSize)
    else if td.description = "" then .error .toolDescriptionRequired
    else if td.description.utf8ByteSize > 1024 then
      .error (.toolDescriptionTooLong td.description.utf8ByteSize)
    else if td.parameters.isEmpty ∧ td.operations.isEmpty then
      .error .atLeastOneParameter
    else
      match validateParamsLoop [] td.parameters with
      | .error e => .error e
      | .ok paramTypes =>
        if td.operations.isEmpty then .ok ()
        else
          match findParameter td.parameters "operation" with
          | none => .error .operationParamRequired
          | some operationParam =>
            if operationParam.type ≠ "string" then
              .error .operationParamMustBeString
            else if ¬operationParam.required then
              .error .operationParamMustBeRequired
            else
              match checkOperationNamesLoop td.operations with
              | .error e => .error e
              | .ok _ =>
                match
                  (if ¬operationParam.enum.isEmpty then
                    checkEnumCoversOps operationParam.enum td.operations
                  else .ok ()) with
                | .error e => .error e
                | .ok _ =>
                  match validateOpsParams paramTypes td.operations with
                  | .error e => .error e
                  | .ok _ => .ok ()

/-! ### Server-side RPC dispatcher (rpc_protocol.go)

The concrete plugin value behind `grpcServer.Impl` is modelled as the
mandatory `PluginTool` methods plus one `Option`-valued record per optional
capability interface: a Go dynamic interface assertion
`s.Impl.(SomeInterface)` succeeds exactly when the corresponding field is
`some`. Methods are modelled as pure functions of their arguments; the
`encoding/json` marshalling used inside two handlers is passed in as an
explicit function argument. The wire message structs mirror the
proto-generated types exactly as they are used in rpc_protocol.go. -/

/-- The proto-generated `PluginMetadata` message (fields as populated in
serve.go): only `tags` is ever rewritten by the dispatcher. -/
structure PluginMetadata where
  name : String
  version : String
  description : String
  tags : List String
  license : String
  repository : String
  maintainers : List (String × String)

structure VersionResponse where
  version : String
deriving DecidableEq

structure MetadataResponse where
  metadata : Option PluginMetadata
  error : String

structure AcceptsFilesResponse where
  acceptedTypes : List String
  supportsFiles : Bool
deriving DecidableEq

structure OperationInfo where
  name : String
  parameters : List String
  requiredParameters : List String
deriving DecidableEq

structure ProtoOperationInfo where
  name : String
  parameters : List String
  requiredParameters : List String
deriving DecidableEq

structure OperationsResponse where
  operations : List ProtoOperationInfo
  supportsOperations : Bool
deriving DecidableEq

structure ConfigResponse where
  success : Bool
  error : String
deriving DecidableEq

structure SettingsResponse where
  settingsJson : String
  error : String
deriving DecidableEq

structure ProtoConfigVariable where
  key : String
  name : String
  description : String
  type : String
  required : Bool
  defaultValueJson : String
  validation : String
  options : List String
  placeholder : String
deriving DecidableEq

structure ConfigVariablesResponse where
  configVars : List ProtoConfigVariable
deriving DecidableEq

structure CompatibilityInfoResponse where
  minAgentVersion : String
  maxAgentVersion : String
  apiVersion : String
deriving DecidableEq

structure WebPagesResponse where
  pages : List String
deriving DecidableEq

structure WebPageResponse where
  content : String
  contentType : String
  error : String
deriving DecidableEq

structure CallResponse where
  resultJson : String
  error : String
deriving DecidableEq

structure CallRequest where
  argsJson : String

structure ProtoFileAttachment where
  name : String
  type : String
  size : Int
  content : List UInt8

structure CallWithFilesRequest where
  argsJson : String
  files : List ProtoFileAttachment

structure ValidateConfigRequest where
  configJson : String

structure InitializeConfigRequest where
  configJson : String

structure WebPageRequest where
  path : String
  query : List (String × String)

/-- Embedding of the `FileAttachment` value struct of the plugin API. -/
structure FileAttachment where
  name : String
  type : String
  size : Int
  content : List UInt8

/-- Embedding of the `ConfigVariable` struct of the plugin API; the dynamic
`DefaultValue interface\x7b\x7d` is a `GoVal` (nil = `.null`). -/
structure ConfigVariable where
  key : String
  name : String
  description : String
  type : String
  required : Bool
  defaultValue : GoVal
  validation : String
  options : List String
  placeholder : String

/-- Result records of the optional capability interfaces: one structure per
Go interface, one field per method (methods modelled as pure values or
functions of their arguments). -/
structure VersionedTool where
  version : String

structure PluginCompatibility where
  minAgentVersion : String
  maxAgentVersion : String
  apiVersion : String

structure MetadataProvider where
  getMetadata : Except String (Option PluginMetadata)
  getTags : List String

structure DefaultSettingsProvider where
  getDefaultSettings : Except String String

structure InitializationProvider where
  getRequiredConfig : List ConfigVariable
  validateConfig : Params → Except String Unit
  initializeWithConfig : Params → Except String Unit

structure WebPageProvider where
  serveWebPage : String → List (String × String) → Except String (String × String)
  getWebPages : List String

structure OperationsProvider where
  getOperations : Option (List OperationInfo)

structure FileAttachmentHandler where
  acceptsFiles : List String
  callWithFiles : String → List FileAttachment → Except String String

/-- The concrete plugin implementation held in `grpcServer.Impl`: the
mandatory `PluginTool` methods and the optional capabilities it satisfies
(`none` = the dynamic interface assertion fails). -/
structure PluginImpl where
  definition : Tool
  call : String → Except String String
  versioned : Option VersionedTool
  compatibility : Option PluginCompatibility
  metadata : Option MetadataProvider
  defaultSettings : Option DefaultSettingsProvider
  initialization : Option InitializationProvider
  webPages : Option WebPageProvider
  operations : Option OperationsProvider
  fileHandler : Option FileAttachmentHandler

namespace grpcServer

/-- Embedding of `grpcServer.Call`. -/
def Call (impl : PluginImpl) (req : CallRequest) : CallResponse :=
  match impl.call req.argsJson with
  | .error e => ⟨"", e⟩
  | .ok result => ⟨result, ""⟩

/-- Embedding of `grpcServer.GetVersion`. -/
def GetVersion (impl : PluginImpl) : VersionResponse :=
  match impl.versioned with
  | some v => ⟨v.version⟩
  | none => ⟨"unknown"⟩

/-- Embedding of `grpcServer.GetDefaultSettings`. -/
def GetDefaultSettings (impl : PluginImpl) : SettingsResponse :=
  match impl.defaultSettings with
  | some sp =>
    match sp.getDefaultSettings with
    | .error e => ⟨"", e⟩
    | .ok s => ⟨s, ""⟩
  | none => ⟨"", ""⟩

/-- Embedding of `grpcServer.GetRequiredConfig`; `marshalValue` stands for
`json.Marshal` applied to the dynamic default value (its error is discarded
by the Go code). -/
def GetRequiredConfig (marshalValue : GoVal → String) (impl : PluginImpl) :
    ConfigVariablesResponse :=
  match impl.initialization with
  | some ip =>
    ⟨ip.getRequiredConfig.map fun cv =>
      ⟨cv.key, cv.name, cv.description, cv.type, cv.required,
        marshalValue cv.defaultValue, cv.validation, cv.options, cv.placeholder⟩⟩
  | none => ⟨[]⟩

/-- Embedding of `grpcServer.ValidateConfig`; `unmarshalConfig` stands for
`json.Unmarshal` of the request JSON. -/
def ValidateConfig (unmarshalConfig : String → Except String Params)
    (impl : PluginImpl) (req : ValidateConfigRequest) : ConfigResponse :=
  match impl.initialization with
  | some ip =>
    match unmarshalConfig req.configJson with
    | .error e => ⟨false, e⟩
    | .ok config =>
      match ip.validateConfig config with
      | .error e => ⟨false, e⟩
      | .ok _ => ⟨true, ""⟩
  | none => ⟨false, "plugin does not implement InitializationProvider"⟩

/-- Embedding of `grpcServer.InitializeWithConfig`. -/
def InitializeWithConfig (unmarshalConfig : String → Except String Params)
    (impl : PluginImpl) (req : InitializeConfigRequest) : ConfigResponse :=
  match impl.initialization with
  | some ip =>
    match unmarshalConfig req.configJson with
    | .error e => ⟨false, e⟩
    | .ok config =>
      match ip.initializeWithConfig config with
      | .error e => ⟨false, e⟩
      | .ok _ => ⟨true, ""⟩
  | none => ⟨false, "plugin does not implement InitializationProvider"⟩

/-- Embedding of `grpcServer.GetMetadata` (on success with a non-nil
metadata value the tags are overwritten from `GetTags`). -/
def GetMetadata (impl : PluginImpl) : MetadataResponse :=
  match impl.metadata with
  | some mp =>
    match mp.getMetadata with
    | .error e => ⟨none, e⟩
    | .ok md =>
      match md with
      | some m => ⟨some { m with tags := mp.getTags }, ""⟩
      | none => ⟨none, ""⟩
  | none => ⟨none, ""⟩

/-- Embedding of `grpcServer.GetCompatibilityInfo`. -/
def GetCompatibilityInfo (impl : PluginImpl) : CompatibilityInfoResponse :=
  match impl.compatibility with
  | some c => ⟨c.minAgentVersion, c.maxAgentVersion, c.apiVersion⟩
  | none => ⟨"", "", ""⟩

/-- Embedding of `grpcServer.GetWebPages`. -/
def GetWebPages (impl : PluginImpl) : WebPagesResponse :=
  match impl.webPages with
  | some wp => ⟨wp.getWebPages⟩
  | none => ⟨[]⟩

/-- Embedding of `grpcServer.ServeWebPage`. -/
def ServeWebPage (impl : PluginImpl) (req : WebPageRequest) : WebPageResponse :=
  match impl.webPages with
  | some wp =>
    match wp.serveWebPage req.path req.query with
    | .error e => ⟨"", "", e⟩
    | .ok (content, contentType) => ⟨content, contentType, ""⟩
  | none => ⟨"", "", "plugin does not implement WebPageProvider"⟩

/-- Embedding of `grpcServer.GetOperations`. -/
def GetOperations (impl : PluginImpl) : OperationsResponse :=
  match impl.operations with
  | some op =>
    match op.getOperations with
    | none => ⟨[], false⟩
    | some operations =>
      ⟨operations.map fun o => ⟨o.name, o.parameters, o.requiredParameters⟩, true⟩
  | none => ⟨[], false⟩

/-- Embedding of `grpcServer.AcceptsFiles`. -/
def AcceptsFiles (impl : PluginImpl) : AcceptsFilesResponse :=
  match impl.fileHandler with
  | some fh => ⟨fh.acceptsFiles, true⟩
  | none => ⟨[], false⟩

/-- Embedding of `grpcServer.CallWithFiles`: with a file handler the proto
attachments are converted and handed to `CallWithFiles`, otherwise the
dispatcher falls back to the plain `Call` method on the arguments JSON. -/
def CallWithFiles (impl : PluginImpl) (req : CallWithFilesRequest) : CallResponse :=
  match impl.fileHandler with
  | some fh =>
    let files : List FileAttachment :=
      req.files.map fun pf => ⟨pf.name, pf.type, pf.size, pf.content⟩
    match fh.callWithFiles req.argsJson files with
    | .error e => ⟨"", e⟩
    | .ok result => ⟨result, ""⟩
  | none =>
    match impl.call req.argsJson with
    | .error e => ⟨"", e⟩
    | .ok result => ⟨result, ""⟩

end grpcServer

/-! ### Concrete sample values used in closed instantiations -/

/-- A plugin implementation that satisfies no optional capability. -/
def implNoCaps : PluginImpl :=
  ⟨⟨"echo", "echo tool", []⟩, fun args => .ok args,
    none, none, none, none, none, none, none, none⟩

/-- A compiled schema with one required integer property named count. -/
def countSchema : Schema :=
  [("type", .str "object"),
    ("properties", .node [("count", .node [("type", .str "integer")])]),
    ("required", .strList ["count"])]

/-- A tool definition whose operation parameter is boolean-typed and
carries no explicit enum; operations hold a single key. -/
def boolOpToolDef : YAMLToolDefinition :=
  ⟨"t", "d", [mkParam "operation" "boolean" "which op" true],
    [("a", ⟨[]⟩)]⟩

/-- A tool definition with a conflicting parameter type between the base
list and an operation list. -/
def conflictToolDef : YAMLToolDefinition :=
  ⟨"t", "d",
    [mkParam "operation" "string" "which op" true,
      mkParam "path" "string" "a path" false],
    [("run", ⟨[mkParam "path" "integer" "a path" false]⟩)]⟩

/-- A tool definition with operations echo (requiring message) and status
(requiring nothing), plus a required global parameter. -/
def echoToolDef : YAMLToolDefinition :=
  ⟨"t", "d",
    [mkParam "operation" "string" "which op" true,
      mkParam "token" "string" "auth token" true],
    [("echo", ⟨[mkParam "message" "string" "text" true]⟩),
      ("status", ⟨[]⟩)]⟩

/-- The tool compiled from `echoToolDef`. -/
def echoTool : Tool :=
  ⟨"t", "d",
    [("type", .str "object"),
      ("properties", .node
        [("operation", .node [("type", .str "string"),
            ("description", .str "which op"),
            ("enum", .strList ["echo", "status"])]),
          ("token", .node [("type", .str "string"),
            ("description", .str "auth token")]),
          ("message", .node [("type", .str "string"),
            ("description", .str "text")])]),
      ("required", .strList ["operation", "token"])]⟩

/-! ### Theorems -/

theorem toLowerChar_eq_dot {c : Char} : toLowerChar c = '.' ↔ c = '.' := by
  unfold toLowerChar
  split
  · rename_i hc
    constructor
    · intro h
      exfalso
      have h65 : 65 ≤ c.toNat := hc.1
      have h90 : c.toNat ≤ 90 := hc.2
      have hvalid : (c.toNat + 32).isValidChar := by
        left
        omega
      have hv : (Char.ofNat (c.toNat + 32)).toNat = c.toNat + 32 := by
        unfold Char.ofNat
        split
        · rfl
        · rename_i hn
          exact absurd hvalid hn
      have : (Char.ofNat (c.toNat + 32)).toNat = ('.' : Char).toNat := by rw [h]
      rw [hv] at this
      have hdot : ('.' : Char).toNat = 46 := rfl
      omega
    · intro h
      subst h
      exact absurd hc.1 (by decide)
  · exact Iff.rfl

theorem suffixFromLastDot_of_no_dot {f : List Char} (h : '.' ∉ f) :
    suffixFromLastDot f = [] := by
  induction f with
  | nil => rfl
  | cons c cs ih =>
    have hc : c ≠ '.' := fun hc => h (hc ▸ List.mem_cons_self c cs)
    have hcs : '.' ∉ cs := fun hm => h (List.mem_cons_of_mem c hm)
    unfold suffixFromLastDot
    rw [if_neg hcs, if_neg hc]

theorem head_toLower (a : List Char) :
    (toLower a).head? = some '.' ↔ a.head? = some '.' := by
  cases a with
  | nil => simp [toLower]
  | cons c cs =>
    simp only [toLower, List.map_cons, List.head?_cons, Option.some_inj]
    exact toLowerChar_eq_dot

/-- The claim of the specification about the file-type matcher: an empty
accept list always rejects; otherwise the call accepts exactly when some
dot-prefixed entry equals the extension case-insensitively or some other
entry equals the declared media type case-insensitively; and a filename
without a dot never matches through a dot-prefixed entry. -/
theorem isFileTypeAccepted_iff (acceptedTypes : List (List Char))
    (filename mimeType : List Char) :
    IsFileTypeAccepted acceptedTypes filename mimeType = true ↔
      (acceptedTypes ≠ [] ∧
        ((∃ a ∈ acceptedTypes, a.head? = some '.' ∧
            toLower a = toLower (suffixFromLastDot filename)) ∨
          (∃ a ∈ acceptedTypes, a.head? ≠ some '.' ∧
            toLower a = toLower mimeType))) := by
  unfold IsFileTypeAccepted
  by_cases hempty : acceptedTypes.isEmpty
  · rw [if_pos hempty]
    simp only [List.isEmpty_iff] at hempty
    subst hempty
    simp
  · rw [if_neg hempty]
    simp only [List.isEmpty_iff] at hempty
    simp only [List.any_eq_true, hempty, ne_eq, not_false_eq_true, true_and]
    constructor
    · rintro ⟨a, ha, hcond⟩
      by_cases hd : (toLower a).head? = some '.'
      · rw [if_pos hd] at hcond
        exact Or.inl ⟨a, ha, (head_toLower a).mp hd, (beq_iff_eq.mp hcond).symm⟩
      · rw [if_neg hd] at hcond
        refine Or.inr ⟨a, ha, ?_, (beq_iff_eq.mp hcond).symm⟩
        exact fun hh => hd ((head_toLower a).mpr hh)
    · rintro (⟨a, ha, hh, heq⟩ | ⟨a, ha, hh, heq⟩)
      · refine ⟨a, ha, ?_⟩
        rw [if_pos ((head_toLower a).mpr hh)]
        exact beq_iff_eq.mpr heq.symm
      · refine ⟨a, ha, ?_⟩
        rw [if_neg (fun hd => hh ((head_toLower a).mp hd))]
        exact beq_iff_eq.mpr heq.symm

/-- C4: For every accepted-types list, filename, and declared media type,
`IsFileTypeAccepted` returns false when the accepted-types list is empty;
otherwise it returns true iff some dot-prefixed entry equals the filename
extension (the substring from the last dot to the end) case-insensitively,
or some non-dot-prefixed entry equals the declared media type
case-insensitively; and a filename containing no dot never matches any
dot-prefixed entry. -/
theorem isFileTypeAccepted_spec (acceptedTypes : List (List Char))
    (filename mimeType : List Char) :
    (acceptedTypes = [] → IsFileTypeAccepted acceptedTypes filename mimeType = false)
    ∧ (IsFileTypeAccepted acceptedTypes filename mimeType = true ↔
        (acceptedTypes ≠ [] ∧
          ((∃ a ∈ acceptedTypes, a.head? = some '.' ∧
              toLower a = toLower (suffixFromLastDot filename)) ∨
            (∃ a ∈ acceptedTypes, a.head? ≠ some '.' ∧
              toLower a = toLower mimeType))))
    ∧ ('.' ∉ filename →
        (IsFileTypeAccepted acceptedTypes filename mimeType = true ↔
          (acceptedTypes ≠ [] ∧ ∃ a ∈ acceptedTypes, a.head? ≠ some '.' ∧
            toLower a = toLower mimeType))) := by
  refine ⟨?_, isFileTypeAccepted_iff acceptedTypes filename mimeType, ?_⟩
  · intro h
    subst h
    rfl
  · intro hnodot
    rw [isFileTypeAccepted_iff acceptedTypes filename mimeType]
    have hsuf : suffixFromLastDot filename = [] := suffixFromLastDot_of_no_dot hnodot
    rw [hsuf]
    constructor
    · rintro ⟨hne, h | h⟩
      · rcases h with ⟨a, ha, hh, heq⟩
        exfalso
        have : a = [] := by
          cases a with
          | nil => rfl
          | cons c cs => simp [toLower] at heq
        subst this
        simp at hh
      · exact ⟨hne, h⟩
    · rintro ⟨hne, h⟩
      exact ⟨hne, Or.inr h⟩

/-- Concrete instantiation of `isFileTypeAccepted_spec`: a file with no dot
in its name is accepted through a media-type entry. -/
theorem isFileTypeAccepted_spec_witness :
    IsFileTypeAccepted ["audio/wav".toList] "noext".toList "AUDIO/WAV".toList = true :=
  ((isFileTypeAccepted_spec ["audio/wav".toList] "noext".toList
      "AUDIO/WAV".toList).2.2 (by decide)).mpr (by decide)

/-- C5: when the plugin implementation does not satisfy
`FileAttachmentHandler`, the dispatcher answer to `CallWithFiles` equals
the answer to a plain `Call` on the same arguments JSON: the file list is
dropped and no absence signal or error is produced. -/
theorem callWithFiles_fallback (impl : PluginImpl) (req : CallWithFilesRequest)
    (h : impl.fileHandler = none) :
    grpcServer.CallWithFiles impl req = grpcServer.Call impl ⟨req.argsJson⟩ := by
  unfold grpcServer.CallWithFiles grpcServer.Call
  rw [h]

/-- Concrete instantiation of `callWithFiles_fallback`. -/
theorem callWithFiles_fallback_witness :
    grpcServer.CallWithFiles implNoCaps ⟨"args", [⟨"a.wav", "audio/wav", 4, []⟩]⟩ =
      grpcServer.Call implNoCaps ⟨"args"⟩ :=
  callWithFiles_fallback implNoCaps ⟨"args", [⟨"a.wav", "audio/wav", 4, []⟩]⟩ rfl

/-- C2 (amended): for a plugin implementation lacking the respective
optional capability the dispatcher answers with the capability-specific
empty or unsupported sentinel and no error for GetVersion, GetMetadata,
AcceptsFiles, GetOperations, GetDefaultSettings, GetRequiredConfig,
GetCompatibilityInfo and GetWebPages; but ValidateConfig,
InitializeWithConfig and ServeWebPage answer with an error message in the
response body (the call itself still succeeds at the transport level). -/
theorem optionalCapability_sentinels (impl : PluginImpl)
    (um : String → Except String Params) (mv : GoVal → String)
    (req1 : ValidateConfigRequest) (req2 : InitializeConfigRequest)
    (req3 : WebPageRequest) :
    (impl.versioned = none → grpcServer.GetVersion impl = ⟨"unknown"⟩)
    ∧ (impl.metadata = none → grpcServer.GetMetadata impl = ⟨none, ""⟩)
    ∧ (impl.fileHandler = none → grpcServer.AcceptsFiles impl = ⟨[], false⟩)
    ∧ (impl.operations = none → grpcServer.GetOperations impl = ⟨[], false⟩)
    ∧ (impl.defaultSettings = none →
        grpcServer.GetDefaultSettings impl = ⟨"", ""⟩)
    ∧ (impl.initialization = none →
        grpcServer.GetRequiredConfig mv impl = ⟨[]⟩)
    ∧ (impl.compatibility = none →
        grpcServer.GetCompatibilityInfo impl = ⟨"", "", ""⟩)
    ∧ (impl.webPages = none → grpcServer.GetWebPages impl = ⟨[]⟩)
    ∧ (impl.initialization = none →
        grpcServer.ValidateConfig um impl req1 =
          ⟨false, "plugin does not implement InitializationProvider"⟩)
    ∧ (impl.initialization = none →
        grpcServer.InitializeWithConfig um impl req2 =
          ⟨false, "plugin does not implement InitializationProvider"⟩)
    ∧ (impl.webPages = none →
        grpcServer.ServeWebPage impl req3 =
          ⟨"", "", "plugin does not implement WebPageProvider"⟩) := by
  refine ⟨?_, ?_, ?_, ?_, ?_, ?_, ?_, ?_, ?_, ?_, ?_⟩ <;>
    intro h <;>
    simp only [grpcServer.GetVersion, grpcServer.GetMetadata,
      grpcServer.AcceptsFiles, grpcServer.GetOperations,
      grpcServer.GetDefaultSettings, grpcServer.GetRequiredConfig,
      grpcServer.GetCompatibilityInfo, grpcServer.GetWebPages,
      grpcServer.ValidateConfig, grpcServer.InitializeWithConfig,
      grpcServer.ServeWebPage, h]

/-- Concrete instantiation of `optionalCapability_sentinels`. -/
theorem optionalCapability_sentinels_witness :
    grpcServer.GetVersion implNoCaps = ⟨"unknown"⟩ ∧
      grpcServer.AcceptsFiles implNoCaps = ⟨[], false⟩ ∧
      grpcServer.GetOperations implNoCaps = ⟨[], false⟩ := by
  have h := optionalCapability_sentinels implNoCaps (fun _ => .ok [])
    (fun _ => "null") ⟨"cfg"⟩ ⟨"cfg"⟩ ⟨"page", []⟩
  exact ⟨h.1 rfl, h.2.2.1 rfl, h.2.2.2.1 rfl⟩

/-- Counterexample to C2 as stated: for a plugin without
`InitializationProvider` or `WebPageProvider`, the ValidateConfig,
InitializeWithConfig and ServeWebPage responses carry a non-empty error
(and Success=false), not an error-free unsupported sentinel. -/
theorem optionalCapability_error_counterexample :
    (grpcServer.ValidateConfig (fun _ => .ok []) implNoCaps ⟨"cfg"⟩).success = false
    ∧ (grpcServer.ValidateConfig (fun _ => .ok []) implNoCaps ⟨"cfg"⟩).error =
        "plugin does not implement InitializationProvider"
    ∧ (grpcServer.InitializeWithConfig (fun _ => .ok []) implNoCaps ⟨"cfg"⟩).error =
        "plugin does not implement InitializationProvider"
    ∧ (grpcServer.ServeWebPage implNoCaps ⟨"page", []⟩).error =
        "plugin does not implement WebPageProvider" :=
  ⟨rfl, rfl, rfl, rfl⟩

theorem isMissingParam_iff (p : YAMLToolParameter) (params : Params) :
    isMissingParam p params = true ↔
      (params.lookup p.name = none ∨ params.lookup p.name = some .null ∨
        (p.type = "string" ∧ params.lookup p.name = some (.str ""))) := by
  unfold isMissingParam
  cases h : params.lookup p.name with
  | none => simp
  | some v =>
    cases v with
    | null => simp
    | str s =>
      by_cases ht : p.type = "string"
      · simp [ht, beq_iff_eq]
      · simp [ht]
    | float64 q => by_cases ht : p.type = "string" <;> simp [ht]
    | float32 q => by_cases ht : p.type = "string" <;> simp [ht]
    | int n => by_cases ht : p.type = "string" <;> simp [ht]
    | int64 n => by_cases ht : p.type = "string" <;> simp [ht]
    | boolean b => by_cases ht : p.type = "string" <;> simp [ht]
    | other => by_cases ht : p.type = "string" <;> simp [ht]

theorem checkRequiredParams_error {l : List YAMLToolParameter} {params : Params}
    {e : ToolErr} (h : checkRequiredParams l params = .error e) :
    ∃ p ∈ l, e = .requiredFieldMissing p.name ∧ isMissingParam p params = true := by
  induction l with
  | nil => simp [checkRequiredParams] at h
  | cons p rest ih =>
    unfold checkRequiredParams at h
    split at h
    · split at h
      · injection h with h2
        exact ⟨p, List.mem_cons_self p rest, h2.symm, by assumption⟩
      · obtain ⟨q, hq, he, hm⟩ := ih h
        exact ⟨q, List.mem_cons_of_mem p hq, he, hm⟩
    · obtain ⟨q, hq, he, hm⟩ := ih h
      exact ⟨q, List.mem_cons_of_mem p hq, he, hm⟩

theorem checkGlobalParams_error {l : List YAMLToolParameter} {params : Params}
    {e : ToolErr} (h : checkGlobalParams l params = .error e) :
    ∃ p ∈ l, e = .requiredFieldMissing p.name ∧ isMissingParam p params = true := by
  induction l with
  | nil => simp [checkGlobalParams] at h
  | cons p rest ih =>
    unfold checkGlobalParams at h
    split at h
    · split at h
      · injection h with h2
        exact ⟨p, List.mem_cons_self p rest, h2.symm, by assumption⟩
      · obtain ⟨q, hq, he, hm⟩ := ih h
        exact ⟨q, List.mem_cons_of_mem p hq, he, hm⟩
    · obtain ⟨q, hq, he, hm⟩ := ih h
      exact ⟨q, List.mem_cons_of_mem p hq, he, hm⟩

theorem validateWithOpDef_error {td : YAMLToolDefinition}
    {opDef : YAMLOperationDefinition} {params : Params} {e : ToolErr}
    (h : validateWithOpDef td opDef params = .error e) :
    ∃ p, (p ∈ td.parameters ∨ p ∈ opDef.parameters) ∧
      e = .requiredFieldMissing p.name ∧ isMissingParam p params = true := by
  unfold validateWithOpDef at h
  cases hg : checkGlobalParams td.parameters params with
  | error e2 =>
    rw [hg] at h
    injection h with h2
    obtain ⟨p, hp, he, hm⟩ := checkGlobalParams_error hg
    exact ⟨p, Or.inl hp, h2 ▸ he, hm⟩
  | ok u =>
    rw [hg] at h
    obtain ⟨p, hp, he, hm⟩ := checkRequiredParams_error h
    exact ⟨p, Or.inr hp, he, hm⟩

/-- C1 (amended): the definition-based validator
`ValidateToolParametersWithOperations` reports a required field as missing
only when its binding is absent, an explicit null, the empty string, or
(for the operation selector) not a string at all, so a numeric binding of
zero is never treated as missing there; `isMissingParam` holds exactly on
absence, null and (for string-typed parameters) the empty string; but the
schema-based `isMissingValue`, hence `ValidateToolParameters`, treats a
numeric zero value of an integer- or number-typed property as missing. -/
theorem numericZero_validation (td : YAMLToolDefinition) (params : Params)
    (n : String) (p : YAMLToolParameter) (v : GoVal)
    (props : Schema) (prop : Schema) :
    (ValidateToolParametersWithOperations (some td) params =
        .error (.requiredFieldMissing n) →
      (params.lookup n = none ∨ params.lookup n = some .null ∨
        params.lookup n = some (.str "") ∨
        (n = "operation" ∧ ∀ s, params.lookup "operation" ≠ some (.str s))))
    ∧ (isMissingParam p params = true ↔
        (params.lookup p.name = none ∨ params.lookup p.name = some .null ∨
          (p.type = "string" ∧ params.lookup p.name = some (.str ""))))
    ∧ ((v = .int 0 ∨ v = .int64 0 ∨ v = .float64 0 ∨ v = .float32 0) →
        params.lookup p.name = some v → isMissingParam p params = false)
    ∧ ((v = .int 0 ∨ v = .int64 0 ∨ v = .float64 0 ∨ v = .float32 0) →
        props.lookup n = some (.node prop) →
        (prop.lookup "type" = some (.str "integer") ∨
          prop.lookup "type" = some (.str "number")) →
        isMissingValue n v (some props) = true) := by
  have missingCase : ∀ q : YAMLToolParameter,
      ToolErr.requiredFieldMissing q.name = ToolErr.requiredFieldMissing n →
      isMissingParam q params = true →
      (params.lookup n = none ∨ params.lookup n = some .null ∨
        params.lookup n = some (.str "") ∨
        (n = "operation" ∧ ∀ s, params.lookup "operation" ≠ some (.str s))) := by
    intro q he hm
    injection he with he2
    rcases (isMissingParam_iff q params).mp hm with h1 | h2 | h3
    · exact Or.inl (he2 ▸ h1)
    · exact Or.inr (Or.inl (he2 ▸ h2))
    · exact Or.inr (Or.inr (Or.inl (he2 ▸ h3.2)))
  have opDefCase : ∀ (opDef : YAMLOperationDefinition),
      validateWithOpDef td opDef params = .error (.requiredFieldMissing n) →
      (params.lookup n = none ∨ params.lookup n = some .null ∨
        params.lookup n = some (.str "") ∨
        (n = "operation" ∧ ∀ s, params.lookup "operation" ≠ some (.str s))) := by
    intro opDef h
    obtain ⟨q, _, he, hm⟩ := validateWithOpDef_error h
    exact missingCase q he.symm hm
  refine ⟨?_, isMissingParam_iff p params, ?_, ?_⟩
  · intro h
    by_cases hop : td.operations.isEmpty
    · simp only [ValidateToolParametersWithOperations, hop, if_true] at h
      obtain ⟨q, _, he, hm⟩ := checkRequiredParams_error h
      exact missingCase q he.symm hm
    · simp only [ValidateToolParametersWithOperations, hop, Bool.false_eq_true,
        if_false] at h
      cases hlk : params.lookup "operation" with
      | none =>
        rw [hlk] at h
        have h2 : ("operation" : String) = n := by simpa using h
        exact Or.inr (Or.inr (Or.inr ⟨h2.symm, fun s => by simp [hlk]⟩))
      | some v =>
        rw [hlk] at h
        cases v with
        | str s =>
          dsimp only at h
          by_cases hs : s = ""
          · subst hs
            rw [if_pos rfl] at h
            have h2 : ("operation" : String) = n := by simpa using h
            exact Or.inr (Or.inr (Or.inl (h2 ▸ hlk)))
          · rw [if_neg hs] at h
            cases hfind : td.operations.lookup s with
            | some opDef =>
              rw [hfind] at h
              rw [← hlk]
              exact opDefCase opDef h
            | none =>
              rw [hfind] at h
              cases hfp : findParameter td.parameters "operation" with
              | none =>
                rw [hfp] at h
                simp at h
              | some opp =>
                rw [hfp] at h
                by_cases he : opp.enum.isEmpty
                · simp only [he, not_true_eq_false, if_false] at h
                  simp at h
                · simp only [he, Bool.false_eq_true, not_false_eq_true,
                    if_true] at h
                  by_cases hc : containsString opp.enum s
                  · rw [if_pos hc] at h
                    rw [← hlk]
                    exact opDefCase ⟨[]⟩ h
                  · rw [if_neg hc] at h
                    simp at h
        | null =>
          have h2 : ("operation" : String) = n := by simpa using h
          exact Or.inr (Or.inr (Or.inr ⟨h2.symm, fun s => by simp [hlk]⟩))
        | float64 q =>
          have h2 : ("operation" : String) = n := by simpa using h
          exact Or.inr (Or.inr (Or.inr ⟨h2.symm, fun s => by simp [hlk]⟩))
        | float32 q =>
          have h2 : ("operation" : String) = n := by simpa using h
          exact Or.inr (Or.inr (Or.inr ⟨h2.symm, fun s => by simp [hlk]⟩))
        | int m =>
          have h2 : ("operation" : String) = n := by simpa using h
          exact Or.inr (Or.inr (Or.inr ⟨h2.symm, fun s => by simp [hlk]⟩))
        | int64 m =>
          have h2 : ("operation" : String) = n := by simpa using h
          exact Or.inr (Or.inr (Or.inr ⟨h2.symm, fun s => by simp [hlk]⟩))
        | boolean b =>
          have h2 : ("operation" : String) = n := by simpa using h
          exact Or.inr (Or.inr (Or.inr ⟨h2.symm, fun s => by simp [hlk]⟩))
        | other =>
          have h2 : ("operation" : String) = n := by simpa using h
          exact Or.inr (Or.inr (Or.inr ⟨h2.symm, fun s => by simp [hlk]⟩))
  · rintro (hv | hv | hv | hv) hlk <;>
      subst hv <;>
      unfold isMissingParam <;>
      rw [hlk] <;>
      by_cases ht : p.type = "string" <;> simp [ht]
  · rintro (hv | hv | hv | hv) hlk htyp <;>
      subst hv <;>
      unfold isMissingValue <;>
      rcases htyp with ht | ht <;>
      simp [hlk, ht]

/-- Counterexample to C1 as stated: the schema-based validator
`ValidateToolParameters` rejects a required integer property bound to zero
with a required-field-missing error. -/
theorem validateToolParameters_zero_counterexample :
    ValidateToolParameters (some countSchema) [("count", .int 0)] =
      .error (.requiredFieldMissing "count") := by
  rfl

/-- Concrete instantiation of `numericZero_validation`: a required integer
parameter bound to zero is not missing for the definition-based check. -/
theorem numericZero_validation_witness :
    isMissingParam (mkParam "count" "integer" "a count" true)
      [("count", .int 0)] = false := by
  have h := (numericZero_validation ⟨"t", "d", [], []⟩ [("count", .int 0)]
    "count" (mkParam "count" "integer" "a count" true) (.int 0) [] []).2.2.1
  exact h (Or.inl rfl) rfl

theorem checkGlobalParams_eq (l : List YAMLToolParameter) (params : Params) :
    checkGlobalParams l params =
      (match (l.filter fun p => p.required && p.name != "operation").find?
          (fun p => isMissingParam p params) with
        | some p => .error (.requiredFieldMissing p.name)
        | none => .ok ()) := by
  induction l with
  | nil => rfl
  | cons p rest ih =>
    unfold checkGlobalParams
    by_cases hc : p.required ∧ p.name ≠ "operation"
    · have hb : (p.required && p.name != "operation") = true := by
        simp [hc.1, bne_iff_ne, hc.2]
      rw [if_pos hc]
      by_cases hm : isMissingParam p params
      · simp [List.filter_cons, hb, List.find?_cons, hm]
      · have hmf : isMissingParam p params = false := Bool.eq_false_iff.mpr hm
        simp [List.filter_cons, hb, List.find?_cons, hmf, ih]
    · have hb : (p.required && p.name != "operation") = false := by
        rcases not_and_or.mp hc with h1 | h2
        · simp [Bool.eq_false_iff.mpr h1]
        · simp only [Bool.and_eq_false_iff]
          right
          simp [bne_iff_ne]
          exact not_not.mp h2
      rw [if_neg hc]
      simp [List.filter_cons, hb, ih]

theorem checkRequiredParams_eq (l : List YAMLToolParameter) (params : Params) :
    checkRequiredParams l params =
      (match (l.filter fun p => p.required).find?
          (fun p => isMissingParam p params) with
        | some p => .error (.requiredFieldMissing p.name)
        | none => .ok ()) := by
  induction l with
  | nil => rfl
  | cons p rest ih =>
    unfold checkRequiredParams
    by_cases hc : p.required
    · rw [if_pos hc]
      by_cases hm : isMissingParam p params
      · simp [List.filter_cons, hc, List.find?_cons, hm]
      · have hmf : isMissingParam p params = false := Bool.eq_false_iff.mpr hm
        simp [List.filter_cons, hc, List.find?_cons, hmf, ih]
    · have hcf : p.required = false := Bool.eq_false_iff.mpr hc
      rw [if_neg hc]
      simp [List.filter_cons, hcf, ih]

theorem validateWithOpDef_eq (td : YAMLToolDefinition)
    (opDef : YAMLOperationDefinition) (params : Params) :
    validateWithOpDef td opDef params =
      (match ((td.parameters.filter fun p => p.required && p.name != "operation")
            ++ opDef.parameters.filter fun p => p.required).find?
          (fun p => isMissingParam p params) with
        | some p => .error (.requiredFieldMissing p.name)
        | none => .ok ()) := by
  unfold validateWithOpDef
  rw [checkGlobalParams_eq, checkRequiredParams_eq, List.find?_append]
  cases hg : (td.parameters.filter fun p => p.required && p.name != "operation").find?
      (fun p => isMissingParam p params) with
  | some p => rfl
  | none => rfl

/-- The reduction of `ValidateToolParametersWithOperations` to
`validateWithOpDef` once the operation argument names a known operation. -/
theorem validateWithOperations_known (td : YAMLToolDefinition) (params : Params)
    (op : String) (opDef : YAMLOperationDefinition)
    (h1 : td.operations ≠ [])
    (h2 : params.lookup "operation" = some (.str op))
    (h3 : op ≠ "")
    (h4 : td.operations.lookup op = some opDef) :
    ValidateToolParametersWithOperations (some td) params =
      validateWithOpDef td opDef params := by
  have hne : td.operations.isEmpty = false := by
    cases hops : td.operations with
    | nil => exact absurd hops h1
    | cons a l => rfl
  simp only [ValidateToolParametersWithOperations, hne, Bool.false_eq_true,
    if_false]
  rw [h2]
  dsimp only
  rw [if_neg h3, h4]

/-- C8: for a tool definition with operations and an argument map naming a
known operation, validation checks the globally required parameters other
than `operation` first (in declaration order), then the required parameters
of the named operation (in declaration order); the first missing parameter
decides the outcome and names the required-field-missing error. -/
theorem requiredOrder_spec (td : YAMLToolDefinition) (params : Params)
    (op : String) (opDef : YAMLOperationDefinition)
    (h1 : td.operations ≠ [])
    (h2 : params.lookup "operation" = some (.str op))
    (h3 : op ≠ "")
    (h4 : td.operations.lookup op = some opDef) :
    ValidateToolParametersWithOperations (some td) params =
      (match ((td.parameters.filter fun p => p.required && p.name != "operation")
            ++ opDef.parameters.filter fun p => p.required).find?
          (fun p => isMissingParam p params) with
        | some p => .error (.requiredFieldMissing p.name)
        | none => .ok ()) := by
  rw [validateWithOperations_known td params op opDef h1 h2 h3 h4]
  exact validateWithOpDef_eq td opDef params

/-- Concrete instantiation of `requiredOrder_spec`: with the echo operation
selected and no further arguments, the first offending parameter is the
globally required `token`, not the operation-specific `message`. -/
theorem requiredOrder_spec_witness :
    ValidateToolParametersWithOperations (some echoToolDef)
        [("operation", .str "echo")] =
      .error (.requiredFieldMissing "token") := by
  have h := requiredOrder_spec echoToolDef [("operation", .str "echo")]
    "echo" ⟨[mkParam "message" "string" "text" true]⟩
    (by simp [echoToolDef]) (by rfl) (by decide) (by rfl)
  rw [h]
  rfl

/-- C7: with operations declared, validation fails with a
required-field-missing error on `operation` unless the operation argument
is a non-empty string; and for a named operation absent from the operation
map, validation passes the membership check (continuing with the zero
operation definition) exactly when the declared `operation` parameter has a
non-empty enum containing the name, and otherwise fails as an unknown
operation. -/
theorem operationMembership_spec (td : YAMLToolDefinition) (params : Params)
    (op : String) (h : td.operations ≠ []) :
    ((¬ ∃ s, s ≠ "" ∧ params.lookup "operation" = some (.str s)) →
      ValidateToolParametersWithOperations (some td) params =
        .error (.requiredFieldMissing "operation"))
    ∧ (params.lookup "operation" = some (.str op) → op ≠ "" →
        td.operations.lookup op = none →
        (((∃ opp, findParameter td.parameters "operation" = some opp ∧
              opp.enum ≠ [] ∧ containsString opp.enum op = true) →
            ValidateToolParametersWithOperations (some td) params =
              validateWithOpDef td ⟨[]⟩ params)
          ∧ ((¬ ∃ opp, findParameter td.parameters "operation" = some opp ∧
              opp.enum ≠ [] ∧ containsString opp.enum op = true) →
            ValidateToolParametersWithOperations (some td) params =
              .error (.unknownOperation op)))) := by
  have hne : td.operations.isEmpty = false := by
    cases hops : td.operations with
    | nil => exact absurd hops h
    | cons a l => rfl
  constructor
  · intro hno
    simp only [ValidateToolParametersWithOperations, hne, Bool.false_eq_true,
      if_false]
    cases hlk : params.lookup "operation" with
    | none => rfl
    | some v =>
      cases v with
      | str s =>
        dsimp only
        by_cases hs : s = ""
        · rw [if_pos hs]
        · exact absurd ⟨s, hs, hlk⟩ hno
      | null => rfl
      | float64 q => rfl
      | float32 q => rfl
      | int m => rfl
      | int64 m => rfl
      | boolean b => rfl
      | other => rfl
  · intro hlk hop hnone
    have hred : ValidateToolParametersWithOperations (some td) params =
        (match findParameter td.parameters "operation" with
          | some operationParam =>
            if ¬operationParam.enum.isEmpty then
              if containsString operationParam.enum op then
                validateWithOpDef td ⟨[]⟩ params
              else .error (.unknownOperation op)
            else .error (.unknownOperation op)
          | none => .error (.unknownOperation op)) := by
      simp only [ValidateToolParametersWithOperations, hne, Bool.false_eq_true,
        if_false]
      rw [hlk]
      dsimp only
      rw [if_neg hop, hnone]
    constructor
    · rintro ⟨opp, hfp, hennil, hcont⟩
      rw [hred, hfp]
      have he : opp.enum.isEmpty = false := by
        cases hen : opp.enum with
        | nil => exact absurd hen hennil
        | cons a l => rfl
      simp only [he, Bool.false_eq_true, not_false_eq_true, if_true, hcont,
        if_pos]
    · intro hno
      rw [hred]
      cases hfp : findParameter td.parameters "operation" with
      | none => rfl
      | some opp =>
        by_cases henum : opp.enum.isEmpty
        · simp only [henum, not_true_eq_false, if_false]
        · have hennil : opp.enum ≠ [] := by
            intro hcon
            rw [hcon] at henum
            exact henum rfl
          have hcont : containsString opp.enum op = false := by
            by_cases hc : containsString opp.enum op
            · exact absurd ⟨opp, hfp, hennil, hc⟩ hno
            · exact Bool.eq_false_iff.mpr hc
          simp only [henum, Bool.false_eq_true, not_false_eq_true, if_true,
            hcont, if_false]

/-- Concrete instantiation of `operationMembership_spec`: an unknown
operation name is rejected. -/
theorem operationMembership_spec_witness :
    ValidateToolParametersWithOperations (some echoToolDef)
        [("operation", .str "drop")] =
      .error (.unknownOperation "drop") := by
  have h := (operationMembership_spec echoToolDef [("operation", .str "drop")]
    "drop" (by simp [echoToolDef])).2 (by rfl) (by decide) (by rfl)
  exact h.2 (by decide)

/-- C10: `ValidateYAMLToolDefinition` rejects a tool name longer than 64
bytes and a tool description longer than 1024 bytes (the Go `len` counts
bytes, which the error text calls characters); a name of exactly 64 and a
description of exactly 1024 pass these checks, shown on a definition that
is otherwise valid. -/
theorem lengthLimits_spec (td : YAMLToolDefinition) (name desc : String) :
    (td.name ≠ "" → td.name.utf8ByteSize > 64 →
      ValidateYAMLToolDefinition (some td) =
        .error (.toolNameTooLong td.name.utf8ByteSize))
    ∧ (td.name ≠ "" → td.name.utf8ByteSize ≤ 64 → td.description ≠ "" →
        td.description.utf8ByteSize > 1024 →
        ValidateYAMLToolDefinition (some td) =
          .error (.toolDescriptionTooLong td.description.utf8ByteSize))
    ∧ (name ≠ "" → name.utf8ByteSize ≤ 64 → desc ≠ "" →
        desc.utf8ByteSize ≤ 1024 →
        ValidateYAMLToolDefinition
            (some ⟨name, desc, [mkParam "location" "string" "City name" true], []⟩) =
          .ok ()) := by
  refine ⟨?_, ?_, ?_⟩
  · intro hn hgt
    simp only [ValidateYAMLToolDefinition]
    rw [if_neg hn, if_pos hgt]
  · intro hn hle hd hgt
    simp only [ValidateYAMLToolDefinition]
    rw [if_neg hn, if_neg (not_lt.mpr hle), if_neg hd, if_pos hgt]
  · intro hn hnle hd hdle
    simp only [ValidateYAMLToolDefinition]
    rw [if_neg hn, if_neg (not_lt.mpr hnle), if_neg hd, if_neg (not_lt.mpr hdle)]
    rfl

set_option maxRecDepth 8192 in
/-- Concrete instantiation of `lengthLimits_spec`: a 64-byte name and a
1024-byte description are accepted. -/
theorem lengthLimits_spec_witness :
    ValidateYAMLToolDefinition
        (some ⟨String.mk (List.replicate 64 'a'),
          String.mk (List.replicate 1024 'x'),
          [mkParam "location" "string" "City name" true], []⟩) =
      .ok () := by
  have h := (lengthLimits_spec ⟨"t", "d", [], []⟩
    (String.mk (List.replicate 64 'a'))
    (String.mk (List.replicate 1024 'x'))).2.2
  exact h (by decide) (by decide) (by decide) (by decide)

theorem containsString_iff (l : List String) (v : String) :
    containsString l v = true ↔ v ∈ l := by
  unfold containsString
  simp [List.any_eq_true]

theorem buildParametersSchemaAux_required {props : Schema} {req : List String}
    {l : List YAMLToolParameter} {P : Schema} {R : List String}
    (h : buildParametersSchemaAux props req l = .ok (P, R)) :
    R = req ++ ((l.filter fun p => p.required).map fun p => p.name) := by
  induction l generalizing props req with
  | nil =>
    unfold buildParametersSchemaAux at h
    injection h with h2
    injection h2 with _ hr
    simp [hr.symm]
  | cons p rest ih =>
    unfold buildParametersSchemaAux at h
    by_cases hn : p.name = ""
    · rw [if_pos hn] at h
      exact absurd h (by simp)
    · rw [if_neg hn] at h
      cases hb : buildParameterSchema p.name p with
      | error e =>
        rw [hb] at h
        exact absurd h (by simp)
      | ok s =>
        rw [hb] at h
        by_cases hr : p.required
        · rw [if_pos hr] at h
          have := ih h
          rw [this, List.filter_cons_of_pos (by simpa using hr)]
          simp
        · have hrf : p.required = false := Bool.eq_false_iff.mpr hr
          rw [if_neg hr] at h
          have := ih h
          rw [this, List.filter_cons_of_neg (by simp [hrf])]

/-- The required list of the assembled schema, when non-empty, is read back
verbatim by `extractRequired`. -/
theorem extractRequired_buildObjectSchema (P : Schema) (req : List String)
    (h : req ≠ []) :
    extractRequired (buildObjectSchema P req) = req := by
  unfold buildObjectSchema extractRequired
  rw [if_neg (by simpa using h)]
  rfl

/-- C3: for a compiled tool definition with operations, the top-level
required list consists exactly of the base-list parameters marked required
plus the name `operation`; a parameter required only inside some operation
parameter list never appears in it. -/
theorem flattenedRequired_spec (y : YAMLToolDefinition) (t : Tool)
    (hops : y.operations ≠ [])
    (h : ToToolDefinition (some y) = .ok t) :
    ∀ n, n ∈ extractRequired t.parameters ↔
      (n = "operation" ∨ ∃ p ∈ y.parameters, p.name = n ∧ p.required) := by
  have hne : y.operations.isEmpty = false := by
    cases hl : y.operations with
    | nil => exact absurd hl hops
    | cons a l => rfl
  by_cases hn : y.name = ""
  · simp [ToToolDefinition, hn] at h
  by_cases hd : y.description = ""
  · simp [ToToolDefinition, hn, hd] at h
  simp only [ToToolDefinition, hn, hd, hne, Bool.false_eq_true, if_false] at h
  cases hu : unionAllParams y.parameters (sortedOperationNames y.operations)
      y.operations with
  | error e => rw [hu] at h; exact absurd h (by simp)
  | ok allParams0 =>
    rw [hu] at h
    dsimp only at h
    cases hp : buildPropertiesFromAll
        (deriveOperationEnum allParams0 (sortedOperationNames y.operations)) with
    | error e => rw [hp] at h; exact absurd h (by simp)
    | ok properties =>
      rw [hp] at h
      dsimp only at h
      cases hg : buildParametersSchema y.parameters with
      | error e => rw [hg] at h; exact absurd h (by simp)
      | ok pr =>
        rw [hg] at h
        obtain ⟨P2, GR⟩ := pr
        dsimp only at h
        by_cases hlook : ((deriveOperationEnum allParams0
            (sortedOperationNames y.operations)).lookup "operation").isNone
        · rw [if_pos hlook] at h
          exact absurd h (by simp)
        · rw [if_neg hlook] at h
          injection h with h2
          have hGR : GR = (y.parameters.filter fun p => p.required).map
              fun p => p.name :=
            buildParametersSchemaAux_required hg
          intro n
          by_cases hc : containsString GR "operation"
          · rw [if_pos hc] at h2
            have hmem : "operation" ∈ GR := (containsString_iff GR "operation").mp hc
            have hGRne : GR ≠ [] := by
              intro hcon
              rw [hcon] at hmem
              exact absurd hmem (List.not_mem_nil "operation")
            rw [← h2, extractRequired_buildObjectSchema properties GR hGRne]
            constructor
            · intro hin
              refine Or.inr ?_
              rw [hGR] at hin
              obtain ⟨p, hp1, hp2⟩ := List.mem_map.mp hin
              obtain ⟨hp3, hp4⟩ := List.mem_filter.mp hp1
              exact ⟨p, hp3, hp2, hp4⟩
            · rintro (hop | ⟨p, hp1, hp2, hp3⟩)
              · exact hop ▸ hmem
              · rw [hGR]
                exact List.mem_map.mpr ⟨p, List.mem_filter.mpr ⟨hp1, hp3⟩, hp2⟩
          · rw [if_neg hc] at h2
            have hGRne : GR ++ ["operation"] ≠ [] := by simp
            rw [← h2, extractRequired_buildObjectSchema properties _ hGRne]
            rw [List.mem_append]
            constructor
            · rintro (hin | hin)
              · refine Or.inr ?_
                rw [hGR] at hin
                obtain ⟨p, hp1, hp2⟩ := List.mem_map.mp hin
                obtain ⟨hp3, hp4⟩ := List.mem_filter.mp hp1
                exact ⟨p, hp3, hp2, hp4⟩
              · exact Or.inl (by simpa using hin)
            · rintro (hop | ⟨p, hp1, hp2, hp3⟩)
              · exact Or.inr (by simp [hop])
              · refine Or.inl ?_
                rw [hGR]
                exact List.mem_map.mpr ⟨p, List.mem_filter.mpr ⟨hp1, hp3⟩, hp2⟩

/-- Concrete instantiation of `flattenedRequired_spec`: the operation-only
required list of the echo tool contains token and operation but not the
operation-specific message. -/
theorem flattenedRequired_spec_witness :
    ∃ t, ToToolDefinition (some echoToolDef) = .ok t ∧
      ("operation" ∈ extractRequired t.parameters ∧
        "token" ∈ extractRequired t.parameters ∧
        "message" ∉ extractRequired t.parameters) := by
  have ht : ToToolDefinition (some echoToolDef) = .ok echoTool := rfl
  refine ⟨_, ht, ?_, ?_, ?_⟩
  · exact (flattenedRequired_spec echoToolDef _ (by simp [echoToolDef]) ht
      "operation").mpr (Or.inl rfl)
  · exact (flattenedRequired_spec echoToolDef _ (by simp [echoToolDef]) ht
      "token").mpr (Or.inr ⟨mkParam "token" "string" "auth token" true,
        by simp [echoToolDef], rfl, rfl⟩)
  · intro hmem
    have := (flattenedRequired_spec echoToolDef _ (by simp [echoToolDef]) ht
      "message").mp hmem
    rcases this with hop | ⟨p, hp1, hp2, hp3⟩
    · exact absurd hop (by decide)
    · simp only [echoToolDef, List.mem_cons, List.mem_singleton] at hp1
      rcases hp1 with h1 | h1 | h1
      · rw [h1] at hp2
        exact absurd hp2 (by decide)
      · rw [h1] at hp2
        exact absurd hp2 (by decide)
      · exact absurd h1 (List.not_mem_nil p)

theorem charListLe_iff (as : List Char) : ∀ bs : List Char,
    charListLe as bs = true ↔ ¬ List.lt bs as := by
  induction as with
  | nil =>
    intro bs
    constructor
    · intro _ hlt
      cases bs with
      | nil => cases hlt
      | cons b bs2 => cases hlt
    · intro _
      rfl
  | cons a as2 ih =>
    intro bs
    cases bs with
    | nil =>
      constructor
      · intro h
        exact absurd h (by simp [charListLe])
      · intro h
        exact absurd (List.lt.nil a as2) h
    | cons b bs2 =>
      unfold charListLe
      by_cases h1 : a < b
      · rw [if_pos h1]
        constructor
        · intro _ hlt
          cases hlt with
          | head _ _ hba => exact absurd hba (lt_asymm h1)
          | tail _ hnab _ => exact hnab h1
        · intro _
          rfl
      · rw [if_neg h1]
        by_cases h2 : b < a
        · rw [if_pos h2]
          constructor
          · intro hf
            exact absurd hf (by simp)
          · intro hn
            exact absurd (List.lt.head bs2 as2 h2) hn
        · rw [if_neg h2]
          have hab : a = b := le_antisymm (le_of_not_lt h2) (le_of_not_lt h1)
          subst hab
          rw [ih bs2]
          constructor
          · intro hn hlt
            cases hlt with
            | head _ _ hba => exact absurd hba h2
            | tail _ _ hrec => exact hn hrec
          · intro hn hrec
            exact hn (List.lt.tail (lt_irrefl a) (lt_irrefl a) hrec)

theorem stringLeB_le (a b : String) : stringLeB a b = true ↔ a ≤ b := by
  unfold stringLeB
  rw [charListLe_iff]
  have hlt : List.lt b.toList a.toList ↔ b < a := by
    rw [String.lt_iff_toList_lt]
    exact List.lt_iff_lex_lt _ _
  rw [hlt]
  exact not_lt

theorem sortedOperationNames_sorted (ops : List (String × YAMLOperationDefinition)) :
    (sortedOperationNames ops).Sorted (· ≤ ·) := by
  unfold sortedOperationNames
  by_cases h : ops.isEmpty
  · rw [if_pos h]
    exact List.sorted_nil
  · rw [if_neg h]
    have htotal : IsTotal String (fun a b => stringLeB a b = true) := ⟨fun a b => by
      rcases le_total a b with hle | hle
      · exact Or.inl ((stringLeB_le a b).mpr hle)
      · exact Or.inr ((stringLeB_le b a).mpr hle)⟩
    have htrans : IsTrans String (fun a b => stringLeB a b = true) := ⟨fun a b c hab hbc =>
      (stringLeB_le a c).mpr
        (le_trans ((stringLeB_le a b).mp hab) ((stringLeB_le b c).mp hbc))⟩
    have hs := @List.sorted_insertionSort String (fun a b => stringLeB a b = true)
      (fun a b => instDecidableEqBool (stringLeB a b) true) htotal htrans
      (ops.map Prod.fst)
    exact List.Pairwise.imp (fun hab => (stringLeB_le _ _).mp hab) hs

theorem sortedOperationNames_perm (ops : List (String × YAMLOperationDefinition)) :
    (sortedOperationNames ops).Perm (ops.map Prod.fst) := by
  unfold sortedOperationNames
  by_cases h : ops.isEmpty
  · rw [if_pos h, List.isEmpty_iff.mp h]
    rfl
  · rw [if_neg h]
    exact List.perm_insertionSort _ _

theorem sortedOperationNames_ne_nil {ops : List (String × YAMLOperationDefinition)}
    (h : ops ≠ []) : sortedOperationNames ops ≠ [] := by
  intro hcon
  have hp := sortedOperationNames_perm ops
  rw [hcon] at hp
  have h2 : ops.map Prod.fst = [] := (List.Perm.nil_eq hp).symm
  exact h (List.map_eq_nil_iff.mp h2)

theorem lookup_append {α : Type} (l1 l2 : List (String × α)) (k : String) :
    (l1 ++ l2).lookup k =
      (match l1.lookup k with
        | some v => some v
        | none => l2.lookup k) := by
  induction l1 with
  | nil => rfl
  | cons kv rest ih =>
    obtain ⟨k2, v2⟩ := kv
    by_cases hk : k = k2
    · have hb : (k == k2) = true := beq_iff_eq.mpr hk
      simp [List.lookup_cons, hb]
    · have hb : (k == k2) = false := beq_eq_false_iff_ne.mpr hk
      simp only [List.cons_append, List.lookup_cons, hb]
      exact ih

theorem lookup_mapInsert_self {α : Type} (m : List (String × α)) (k : String) (v : α) :
    (mapInsert m k v).lookup k = some v := by
  unfold mapInsert
  by_cases h : (m.lookup k).isSome
  · rw [if_pos h]
    induction m with
    | nil => simp at h
    | cons kv rest ih =>
      obtain ⟨k2, v2⟩ := kv
      by_cases hk : k2 = k
      · subst hk
        have hb : (k2 == k2) = true := beq_iff_eq.mpr rfl
        simp [List.lookup_cons, hb]
      · have hb : (k == k2) = false :=
          beq_eq_false_iff_ne.mpr (fun hc => hk hc.symm)
        have hif : ((k2, v2).1 = k) = False := by
          simp [hk]
        simp only [List.map_cons, List.lookup_cons, hb] at h ⊢
        rw [if_neg (by simpa using hk)]
        simp only [List.lookup_cons, hb]
        exact ih h
  · rw [if_neg h]
    rw [lookup_append]
    rw [Option.not_isSome_iff_eq_none.mp h]
    have hb : (k == k) = true := beq_iff_eq.mpr rfl
    simp [List.lookup_cons, hb]

theorem buildPropertiesFromAll_lookup {all : List (String × YAMLToolParameter)}
    {props : Schema} {k : String} {p : YAMLToolParameter}
    (h : buildPropertiesFromAll all = .ok props)
    (hk : all.lookup k = some p) :
    ∃ s, buildParameterSchema k p = .ok s ∧
      props.lookup k = some (.node s) := by
  induction all generalizing props with
  | nil => simp at hk
  | cons kv rest ih =>
    obtain ⟨n, q⟩ := kv
    unfold buildPropertiesFromAll at h
    cases hb : buildParameterSchema n q with
    | error e =>
      rw [hb] at h
      simp at h
    | ok s =>
      rw [hb] at h
      cases hrest : buildPropertiesFromAll rest with
      | error e =>
        rw [hrest] at h
        simp at h
      | ok props2 =>
        rw [hrest] at h
        injection h with h2
        by_cases hk2 : k = n
        · subst hk2
          have hbq : (k == k) = true := beq_iff_eq.mpr rfl
          rw [List.lookup_cons] at hk
          simp only [hbq] at hk
          injection hk with hk3
          subst hk3
          refine ⟨s, hb, ?_⟩
          rw [← h2]
          simp [List.lookup_cons, hbq]
        · have hbq : (k == n) = false := beq_eq_false_iff_ne.mpr hk2
          rw [List.lookup_cons] at hk
          simp only [hbq] at hk
          obtain ⟨s2, hbs2, hl2⟩ := ih hrest hk
          refine ⟨s2, hbs2, ?_⟩
          rw [← h2]
          simp only [List.lookup_cons, hbq]
          exact hl2

theorem withEnum_type (p : YAMLToolParameter) (e : List String) :
    (p.withEnum e).type = p.type := by
  cases p
  rfl

theorem withEnum_enum (p : YAMLToolParameter) (e : List String) :
    (p.withEnum e).enum = e := by
  cases p
  rfl

theorem deriveOperationEnum_of_empty {m : List (String × YAMLToolParameter)}
    {p : YAMLToolParameter} (names : List String)
    (hl : m.lookup "operation" = some p) (he : p.enum = []) :
    deriveOperationEnum m names = mapInsert m "operation" (p.withEnum names) := by
  unfold deriveOperationEnum
  rw [hl]
  dsimp only
  rw [if_pos (by simp [he])]

set_option maxHeartbeats 1000000 in
theorem buildParameterSchema_string_enum {n : String} {p : YAMLToolParameter}
    {s : Schema} (ht : p.type = "string") (hen : p.enum ≠ [])
    (h : buildParameterSchema n p = .ok s) :
    s.lookup "enum" = some (.strList p.enum) := by
  obtain ⟨pn, pt, pd, pr, pdf, pen, pit, ppr, pmn, pmx, pmnl, pmxl, ppt⟩ := p
  simp only [YAMLToolParameter.type] at ht
  simp only [YAMLToolParameter.enum] at hen ⊢
  subst ht
  unfold buildParameterSchema at h
  rw [if_neg (by decide)] at h
  injection h with h2
  rw [← h2]
  have hdec : decide (pen ≠ []) = true := decide_eq_true hen
  by_cases hd : pd = "" <;>
    rcases pdf with _ | d <;>
    rcases pmnl with _ | mnl <;>
    rcases pmxl with _ | mxl <;>
    by_cases hptt : ppt = "" <;>
    simp [optEntry, defaultEntry, hd, hptt, hdec, lookup_append, List.lookup_cons]

theorem extractProperties_buildObjectSchema (P : Schema) (req : List String) :
    extractProperties (buildObjectSchema P req) = some P := rfl

/-- C9 (amended): for a compiling tool definition with operations whose
union-map `operation` parameter is string-typed and declares no explicit
enum, the compiled `operation` property carries an enum equal to the
operation-map keys in ascending lexicographic order. (As stated the claim
fails when the `operation` parameter has a non-string type: the compiled
property then carries no enum at all.) -/
theorem derivedEnum_spec (y : YAMLToolDefinition) (t : Tool)
    (m : List (String × YAMLToolParameter)) (p : YAMLToolParameter)
    (hops : y.operations ≠ [])
    (hu : unionAllParams y.parameters (sortedOperationNames y.operations)
        y.operations = .ok m)
    (hlm : m.lookup "operation" = some p)
    (htype : p.type = "string")
    (henum : p.enum = [])
    (h : ToToolDefinition (some y) = .ok t) :
    ∃ props nodeSchema l,
      extractProperties t.parameters = some props ∧
      props.lookup "operation" = some (.node nodeSchema) ∧
      nodeSchema.lookup "enum" = some (.strList l) ∧
      l.Perm (y.operations.map Prod.fst) ∧ l.Sorted (· ≤ ·) := by
  have hne : y.operations.isEmpty = false := by
    cases hl : y.operations with
    | nil => exact absurd hl hops
    | cons a l => rfl
  by_cases hn : y.name = ""
  · simp [ToToolDefinition, hn] at h
  by_cases hd : y.description = ""
  · simp [ToToolDefinition, hn, hd] at h
  simp only [ToToolDefinition, hn, hd, hne, Bool.false_eq_true, if_false] at h
  rw [hu] at h
  dsimp only at h
  rw [deriveOperationEnum_of_empty (sortedOperationNames y.operations) hlm henum] at h
  have hlk2 : (mapInsert m "operation"
      (p.withEnum (sortedOperationNames y.operations))).lookup "operation" =
        some (p.withEnum (sortedOperationNames y.operations)) :=
    lookup_mapInsert_self m "operation" _
  cases hp : buildPropertiesFromAll (mapInsert m "operation"
      (p.withEnum (sortedOperationNames y.operations))) with
  | error e =>
    rw [hp] at h
    exact absurd h (by simp)
  | ok props =>
    rw [hp] at h
    dsimp only at h
    cases hg : buildParametersSchema y.parameters with
    | error e =>
      rw [hg] at h
      exact absurd h (by simp)
    | ok pr =>
      rw [hg] at h
      obtain ⟨P2, GR⟩ := pr
      dsimp only at h
      rw [if_neg (by simp [hlk2])] at h
      injection h with h2
      obtain ⟨s, hbs, hpl⟩ := buildPropertiesFromAll_lookup hp hlk2
      have hsenum : s.lookup "enum" =
          some (.strList (p.withEnum (sortedOperationNames y.operations)).enum) :=
        buildParameterSchema_string_enum (by rw [withEnum_type, htype])
          (by rw [withEnum_enum]; exact sortedOperationNames_ne_nil hops) hbs
      refine ⟨props, s, sortedOperationNames y.operations, ?_, hpl, ?_, ?_, ?_⟩
      · rw [← h2]
        exact extractProperties_buildObjectSchema props _
      · rw [hsenum, withEnum_enum]
      · exact sortedOperationNames_perm y.operations
      · exact sortedOperationNames_sorted y.operations

/-- Counterexample to C9 as stated: a tool definition whose `operation`
parameter is boolean-typed and declares no enum compiles, and its compiled
`operation` property carries no enum entry at all. -/
theorem derivedEnum_counterexample :
    ∃ t, ToToolDefinition (some boolOpToolDef) = .ok t ∧
      ∃ props nodeSchema,
        extractProperties t.parameters = some props ∧
        props.lookup "operation" = some (.node nodeSchema) ∧
        nodeSchema.lookup "enum" = none := by
  refine ⟨.mk "t" "d"
    [("type", .str "object"),
      ("properties", .node [("operation", .node
        [("type", .str "boolean"), ("description", .str "which op")])]),
      ("required", .strList ["operation"])], rfl, ?_⟩
  exact ⟨[("operation", .node [("type", .str "boolean"),
    ("description", .str "which op")])],
    [("type", .str "boolean"), ("description", .str "which op")], rfl, rfl, rfl⟩

/-- Concrete instantiation of `derivedEnum_spec` on the echo tool. -/
theorem derivedEnum_spec_witness :
    ∃ props nodeSchema l,
      extractProperties echoTool.parameters = some props ∧
      props.lookup "operation" = some (.node nodeSchema) ∧
      nodeSchema.lookup "enum" = some (.strList l) ∧
      l.Perm (echoToolDef.operations.map Prod.fst) ∧ l.Sorted (· ≤ ·) :=
  derivedEnum_spec echoToolDef echoTool
    [("operation", mkParam "operation" "string" "which op" true),
      ("token", mkParam "token" "string" "auth token" true),
      ("message", mkParam "message" "string" "text" true)]
    (mkParam "operation" "string" "which op" true)
    (by simp [echoToolDef]) rfl rfl rfl rfl rfl

theorem lookup_mem {α : Type} {l : List (String × α)} {k : String} {v : α}
    (h : l.lookup k = some v) : (k, v) ∈ l := by
  induction l with
  | nil => simp at h
  | cons kv rest ih =>
    obtain ⟨k2, v2⟩ := kv
    by_cases hk : k = k2
    · subst hk
      have hb : (k == k) = true := beq_iff_eq.mpr rfl
      rw [List.lookup_cons] at h
      simp only [hb] at h
      injection h with h2
      subst h2
      exact List.mem_cons_self _ _
    · have hb : (k == k2) = false := beq_eq_false_iff_ne.mpr hk
      rw [List.lookup_cons] at h
      simp only [hb] at h
      exact List.mem_cons_of_mem _ (ih h)

theorem lookup_none_iff {α : Type} {l : List (String × α)} {k : String} :
    l.lookup k = none ↔ k ∉ l.map Prod.fst := by
  induction l with
  | nil => simp
  | cons kv rest ih =>
    obtain ⟨k2, v2⟩ := kv
    by_cases hk : k = k2
    · subst hk
      have hb : (k == k) = true := beq_iff_eq.mpr rfl
      simp [List.lookup_cons, hb]
    · have hb : (k == k2) = false := beq_eq_false_iff_ne.mpr hk
      simp [List.lookup_cons, hb, ih, hk]

theorem lookup_isSome_iff {α : Type} {l : List (String × α)} {k : String} :
    (l.lookup k).isSome = true ↔ k ∈ l.map Prod.fst := by
  constructor
  · intro hs
    cases h : l.lookup k with
    | none =>
      rw [h] at hs
      simp at hs
    | some v => exact List.mem_map.mpr ⟨(k, v), lookup_mem h, rfl⟩
  · intro hm
    by_contra hne
    have h0 : l.lookup k = none := Option.not_isSome_iff_eq_none.mp hne
    exact lookup_none_iff.mp h0 hm

theorem mem_lookup_nodup {α : Type} {l : List (String × α)} {k : String} {v : α}
    (hnd : (l.map Prod.fst).Nodup) (h : (k, v) ∈ l) : l.lookup k = some v := by
  induction l with
  | nil => simp at h
  | cons kv rest ih =>
    obtain ⟨k2, v2⟩ := kv
    simp only [List.map_cons, List.nodup_cons] at hnd
    rcases List.mem_cons.mp h with h1 | h1
    · injection h1 with ha hb
      subst ha
      subst hb
      have hb : (k == k) = true := beq_iff_eq.mpr rfl
      simp [List.lookup_cons, hb]
    · have hk : k ≠ k2 := by
        intro hc
        subst hc
        exact hnd.1 (List.mem_map.mpr ⟨(k, v), h1, rfl⟩)
      have hb : (k == k2) = false := beq_eq_false_iff_ne.mpr hk
      simp only [List.lookup_cons, hb]
      exact ih hnd.2 h1

theorem addParameterDefinitions_append (l1 l2 : List YAMLToolParameter)
    (m : List (String × YAMLToolParameter)) :
    addParameterDefinitions m (l1 ++ l2) =
      (match addParameterDefinitions m l1 with
        | .error e => .error e
        | .ok m2 => addParameterDefinitions m2 l2) := by
  induction l1 generalizing m with
  | nil => rfl
  | cons p rest ih =>
    simp only [List.cons_append]
    by_cases hn : p.name = ""
    · simp only [addParameterDefinitions, if_pos hn]
    · simp only [addParameterDefinitions, if_neg hn]
      cases hl : m.lookup p.name with
      | some existing =>
        dsimp only
        by_cases hty : existing.type ≠ p.type
        · simp only [if_pos hty]
        · simp only [if_neg hty]
          exact ih m
      | none =>
        dsimp only
        exact ih (m ++ [(p.name, p)])

theorem unionOpsParams_flatten (names : List String)
    (ops : List (String × YAMLOperationDefinition))
    (m : List (String × YAMLToolParameter)) :
    unionOpsParams m names ops =
      addParameterDefinitions m
        (names.flatMap fun nm => ((ops.lookup nm).getD ⟨[]⟩).parameters) := by
  induction names generalizing m with
  | nil => rfl
  | cons nm rest ih =>
    simp only [List.flatMap_cons]
    rw [addParameterDefinitions_append]
    unfold unionOpsParams
    cases h : addParameterDefinitions m ((ops.lookup nm).getD ⟨[]⟩).parameters with
    | error e => rfl
    | ok m2 => exact ih m2

theorem unionAllParams_flatten (baseParams : List YAMLToolParameter)
    (names : List String) (ops : List (String × YAMLOperationDefinition)) :
    unionAllParams baseParams names ops =
      addParameterDefinitions []
        (baseParams ++ names.flatMap fun nm => ((ops.lookup nm).getD ⟨[]⟩).parameters) := by
  unfold unionAllParams
  rw [addParameterDefinitions_append]
  cases h : addParameterDefinitions [] baseParams with
  | error e => rfl
  | ok base => exact unionOpsParams_flatten names ops base

theorem addParameterDefinitions_conflict :
    ∀ (L : List YAMLToolParameter) (m : List (String × YAMLToolParameter)),
    (∀ q ∈ L, q.name ≠ "") →
    (∀ kp ∈ m, (Prod.snd kp).name = Prod.fst kp) →
    ((m.map Prod.fst).Nodup) →
    (∃ a b, (a ∈ m.map Prod.snd ∨ a ∈ L) ∧ b ∈ L ∧ a.name = b.name ∧
      a.type ≠ b.type) →
    ∃ nm t1 t2, t1 ≠ t2 ∧
      addParameterDefinitions m L = .error (.conflictingTypes nm t1 t2) ∧
      (∃ a, (a ∈ m.map Prod.snd ∨ a ∈ L) ∧ a.name = nm ∧ a.type = t1) ∧
      (∃ b ∈ L, b.name = nm ∧ b.type = t2) := by
  intro L
  induction L with
  | nil =>
    intro m _ _ _ hpair
    obtain ⟨a, b, _, hb, _⟩ := hpair
    exact absurd hb (List.not_mem_nil b)
  | cons p rest ih =>
    intro m hnames hinv hnd hpair
    have hn : p.name ≠ "" := hnames p (List.mem_cons_self p rest)
    cases hl : m.lookup p.name with
    | some existing =>
      have hexmem : (p.name, existing) ∈ m := lookup_mem hl
      have hexname : existing.name = p.name := hinv (p.name, existing) hexmem
      have hexval : existing ∈ m.map Prod.snd :=
        List.mem_map.mpr ⟨(p.name, existing), hexmem, rfl⟩
      by_cases hty : existing.type ≠ p.type
      · refine ⟨p.name, existing.type, p.type, hty, ?_, ?_, ?_⟩
        · simp only [addParameterDefinitions, if_neg hn, hl]
          rw [if_pos hty]
        · exact ⟨existing, Or.inl hexval, hexname, rfl⟩
        · exact ⟨p, List.mem_cons_self p rest, rfl, rfl⟩
      · have htyeq : existing.type = p.type := not_not.mp hty
        have hvaleq : ∀ a, a ∈ m.map Prod.snd → a.name = p.name → a = existing := by
          intro a hma hnma
          obtain ⟨⟨k2, a2⟩, hmem2, heq2⟩ := List.mem_map.mp hma
          have hk2 : a2.name = k2 := hinv (k2, a2) hmem2
          have ha2 : a2 = a := heq2
          subst ha2
          have hk2n : k2 = p.name := by rw [← hk2, hnma]
          subst hk2n
          have := mem_lookup_nodup hnd hmem2
          rw [hl] at this
          injection this with h3
          exact h3.symm
        have hpair2 : ∃ a b, (a ∈ m.map Prod.snd ∨ a ∈ rest) ∧ b ∈ rest ∧
            a.name = b.name ∧ a.type ≠ b.type := by
          obtain ⟨a, b, ha, hb, hnm, hne⟩ := hpair
          rcases List.mem_cons.mp hb with hbp | hbrest
          · subst hbp
            rcases ha with hma | hla
            · have haex : a = existing := hvaleq a hma hnm
              subst haex
              exact absurd htyeq hne
            · rcases List.mem_cons.mp hla with hap | harest
              · subst hap
                exact absurd rfl hne
              · refine ⟨existing, a, Or.inl hexval, harest, ?_, ?_⟩
                · rw [hexname, ← hnm]
                · rw [htyeq]
                  exact fun hc => hne hc.symm
          · rcases ha with hma | hla
            · exact ⟨a, b, Or.inl hma, hbrest, hnm, hne⟩
            · rcases List.mem_cons.mp hla with hap | harest
              · subst hap
                refine ⟨existing, b, Or.inl hexval, hbrest, ?_, ?_⟩
                · rw [hexname, hnm]
                · rw [htyeq]
                  exact hne
              · exact ⟨a, b, Or.inr harest, hbrest, hnm, hne⟩
        obtain ⟨nm, t1, t2, hne12, heq, hA, hB⟩ :=
          ih m (fun q hq => hnames q (List.mem_cons_of_mem p hq)) hinv hnd hpair2
        refine ⟨nm, t1, t2, hne12, ?_, ?_, ?_⟩
        · simp only [addParameterDefinitions, if_neg hn, hl]
          rw [if_neg hty]
          exact heq
        · obtain ⟨a, ha, h1, h2⟩ := hA
          exact ⟨a, ha.imp id (List.mem_cons_of_mem p), h1, h2⟩
        · obtain ⟨b, hb, h1, h2⟩ := hB
          exact ⟨b, List.mem_cons_of_mem p hb, h1, h2⟩
    | none =>
      have hnotin : p.name ∉ m.map Prod.fst := lookup_none_iff.mp hl
      have hinv2 : ∀ kp ∈ m ++ [(p.name, p)], (Prod.snd kp).name = Prod.fst kp := by
        intro kp hkp
        rcases List.mem_append.mp hkp with h1 | h1
        · exact hinv kp h1
        · rw [List.mem_singleton.mp h1]
      have hnd2 : (((m ++ [(p.name, p)])).map Prod.fst).Nodup := by
        rw [List.map_append]
        rw [List.nodup_append]
        refine ⟨hnd, List.nodup_singleton _, ?_⟩
        intro x hx
        simp only [List.map_cons, List.map_nil, List.mem_singleton]
        intro hc
        subst hc
        exact hnotin hx
      have hvals2 : (m ++ [(p.name, p)]).map Prod.snd = m.map Prod.snd ++ [p] := by
        rw [List.map_append]
        rfl
      have hpmem : p ∈ (m ++ [(p.name, p)]).map Prod.snd := by
        rw [hvals2]
        exact List.mem_append.mpr (Or.inr (List.mem_singleton.mpr rfl))
      have hpair2 : ∃ a b, (a ∈ (m ++ [(p.name, p)]).map Prod.snd ∨ a ∈ rest) ∧
          b ∈ rest ∧ a.name = b.name ∧ a.type ≠ b.type := by
        obtain ⟨a, b, ha, hb, hnm, hne⟩ := hpair
        rcases List.mem_cons.mp hb with hbp | hbrest
        · rcases ha with hma | hla
          · exfalso
            obtain ⟨⟨k2, a2⟩, hmem2, heq2⟩ := List.mem_map.mp hma
            have hk2 : a2.name = k2 := hinv (k2, a2) hmem2
            have ha2 : a2 = a := heq2
            apply hnotin
            have hnm2 : a2.name = p.name := by
              rw [ha2, hnm, hbp]
            rw [← hnm2]
            exact List.mem_map.mpr ⟨(k2, a2), hmem2, hk2.symm⟩
          · rcases List.mem_cons.mp hla with hap | harest
            · exfalso
              apply hne
              rw [hap, hbp]
            · refine ⟨p, a, Or.inl hpmem, harest, ?_, ?_⟩
              · have h5 : a.name = p.name := by rw [hnm, hbp]
                exact h5.symm
              · have h5 : a.type ≠ p.type := by
                  rw [← hbp]
                  exact hne
                exact fun hc => h5 hc.symm
        · rcases ha with hma | hla
          · refine ⟨a, b, Or.inl ?_, hbrest, hnm, hne⟩
            rw [hvals2]
            exact List.mem_append.mpr (Or.inl hma)
          · rcases List.mem_cons.mp hla with hap | harest
            · refine ⟨p, b, Or.inl hpmem, hbrest, ?_, ?_⟩
              · rw [← hap]
                exact hnm
              · rw [← hap]
                exact hne
            · exact ⟨a, b, Or.inr harest, hbrest, hnm, hne⟩
      obtain ⟨nm, t1, t2, hne12, heq, hA, hB⟩ :=
        ih (m ++ [(p.name, p)])
          (fun q hq => hnames q (List.mem_cons_of_mem p hq)) hinv2 hnd2 hpair2
      refine ⟨nm, t1, t2, hne12, ?_, ?_, ?_⟩
      · simp only [addParameterDefinitions, if_neg hn, hl]
        exact heq
      · obtain ⟨a, ha, h1, h2⟩ := hA
        rcases ha with hma | hla
        · rw [hvals2] at hma
          rcases List.mem_append.mp hma with h3 | h3
          · exact ⟨a, Or.inl h3, h1, h2⟩
          · have hap : a = p := List.mem_singleton.mp h3
            refine ⟨a, Or.inr ?_, h1, h2⟩
            rw [hap]
            exact List.mem_cons_self p rest
        · exact ⟨a, Or.inr (List.mem_cons_of_mem p hla), h1, h2⟩
      · obtain ⟨b, hb, h1, h2⟩ := hB
        exact ⟨b, List.mem_cons_of_mem p hb, h1, h2⟩

theorem addParameterDefinitions_conflict_converse :
    ∀ (L : List YAMLToolParameter) (m : List (String × YAMLToolParameter))
      {nm t1 t2 : String},
    (∀ kp ∈ m, (Prod.snd kp).name = Prod.fst kp) →
    addParameterDefinitions m L = .error (.conflictingTypes nm t1 t2) →
    ∃ a b, (a ∈ m.map Prod.snd ∨ a ∈ L) ∧ b ∈ L ∧ a.name = b.name ∧
      a.type ≠ b.type := by
  intro L
  induction L with
  | nil =>
    intro m nm t1 t2 _ h
    exact absurd h (by simp [addParameterDefinitions])
  | cons p rest ih =>
    intro m nm t1 t2 hinv h
    by_cases hn : p.name = ""
    · simp only [addParameterDefinitions, if_pos hn] at h
      exact absurd h (by simp)
    · simp only [addParameterDefinitions, if_neg hn] at h
      cases hl : m.lookup p.name with
      | some existing =>
        rw [hl] at h
        dsimp only at h
        by_cases hty : existing.type ≠ p.type
        · refine ⟨existing, p, Or.inl ?_, List.mem_cons_self p rest, ?_, hty⟩
          · exact List.mem_map.mpr ⟨(p.name, existing), lookup_mem hl, rfl⟩
          · exact hinv (p.name, existing) (lookup_mem hl)
        · rw [if_neg hty] at h
          obtain ⟨a, b, ha, hb, h1, h2⟩ := ih m hinv h
          exact ⟨a, b, ha.imp id (List.mem_cons_of_mem p), List.mem_cons_of_mem p hb,
            h1, h2⟩
      | none =>
        rw [hl] at h
        dsimp only at h
        have hinv2 : ∀ kp ∈ m ++ [(p.name, p)], (Prod.snd kp).name = Prod.fst kp := by
          intro kp hkp
          rcases List.mem_append.mp hkp with h1 | h1
          · exact hinv kp h1
          · rw [List.mem_singleton.mp h1]
        obtain ⟨a, b, ha, hb, h1, h2⟩ := ih (m ++ [(p.name, p)]) hinv2 h
        refine ⟨a, b, ?_, List.mem_cons_of_mem p hb, h1, h2⟩
        rcases ha with hma | hla
        · rw [List.map_append] at hma
          rcases List.mem_append.mp hma with h3 | h3
          · exact Or.inl h3
          · have hap : a = p := List.mem_singleton.mp h3
            refine Or.inr ?_
            rw [hap]
            exact List.mem_cons_self p rest
        · exact Or.inr (List.mem_cons_of_mem p hla)

theorem addParameterDefinitions_ok_keys :
    ∀ (L : List YAMLToolParameter) (m m2 : List (String × YAMLToolParameter)),
    addParameterDefinitions m L = .ok m2 →
    ∀ k, (m2.lookup k).isSome = true ↔
      ((m.lookup k).isSome = true ∨ ∃ q ∈ L, q.name = k) := by
  intro L
  induction L with
  | nil =>
    intro m m2 h k
    simp only [addParameterDefinitions] at h
    injection h with h2
    subst h2
    simp
  | cons p rest ih =>
    intro m m2 h k
    by_cases hn : p.name = ""
    · simp only [addParameterDefinitions, if_pos hn] at h
      exact absurd h (by simp)
    · simp only [addParameterDefinitions, if_neg hn] at h
      cases hl : m.lookup p.name with
      | some existing =>
        rw [hl] at h
        dsimp only at h
        by_cases hty : existing.type ≠ p.type
        · rw [if_pos hty] at h
          exact absurd h (by simp)
        · rw [if_neg hty] at h
          rw [ih m m2 h k]
          constructor
          · rintro (h1 | ⟨q, hq, h2⟩)
            · exact Or.inl h1
            · exact Or.inr ⟨q, List.mem_cons_of_mem p hq, h2⟩
          · rintro (h1 | ⟨q, hq, h2⟩)
            · exact Or.inl h1
            · rcases List.mem_cons.mp hq with hqp | hqrest
              · refine Or.inl ?_
                rw [← h2, hqp, hl]
                rfl
              · exact Or.inr ⟨q, hqrest, h2⟩
      | none =>
        rw [hl] at h
        dsimp only at h
        rw [ih (m ++ [(p.name, p)]) m2 h k]
        have happ : ((m ++ [(p.name, p)]).lookup k).isSome = true ↔
            ((m.lookup k).isSome = true ∨ k = p.name) := by
          rw [lookup_append]
          cases hmk : m.lookup k with
          | some v => simp
          | none =>
            simp only [Option.isSome_none, Bool.false_eq_true, false_or]
            by_cases hk : k = p.name
            · have hb : (k == p.name) = true := beq_iff_eq.mpr hk
              simp [List.lookup_cons, hb, hk]
            · have hb : (k == p.name) = false := beq_eq_false_iff_ne.mpr hk
              simp [List.lookup_cons, hb, hk]
        rw [happ]
        constructor
        · rintro ((h1 | h1) | ⟨q, hq, h2⟩)
          · exact Or.inl h1
          · exact Or.inr ⟨p, List.mem_cons_self p rest, h1.symm⟩
          · exact Or.inr ⟨q, List.mem_cons_of_mem p hq, h2⟩
        · rintro (h1 | ⟨q, hq, h2⟩)
          · exact Or.inl (Or.inl h1)
          · rcases List.mem_cons.mp hq with hqp | hqrest
            · refine Or.inl (Or.inr ?_)
              rw [← h2, hqp]
            · exact Or.inr ⟨q, hqrest, h2⟩

theorem buildPropertiesFromAll_keys :
    ∀ (all : List (String × YAMLToolParameter)) (props : Schema),
    buildPropertiesFromAll all = .ok props →
    props.map Prod.fst = all.map Prod.fst := by
  intro all
  induction all with
  | nil =>
    intro props h
    simp only [buildPropertiesFromAll] at h
    injection h with h2
    subst h2
    rfl
  | cons kv rest ih =>
    intro props h
    obtain ⟨n, q⟩ := kv
    simp only [buildPropertiesFromAll] at h
    cases hb : buildParameterSchema n q with
    | error e =>
      rw [hb] at h
      exact absurd h (by simp)
    | ok s =>
      rw [hb] at h
      dsimp only at h
      cases hrest : buildPropertiesFromAll rest with
      | error e =>
        rw [hrest] at h
        exact absurd h (by simp)
      | ok props2 =>
        rw [hrest] at h
        dsimp only at h
        injection h with h2
        rw [← h2]
        simp only [List.map_cons]
        rw [ih props2 hrest]

theorem deriveOperationEnum_keys (m : List (String × YAMLToolParameter))
    (names : List String) :
    (deriveOperationEnum m names).map Prod.fst = m.map Prod.fst := by
  unfold deriveOperationEnum
  cases hl : m.lookup "operation" with
  | none => rfl
  | some opParam =>
    dsimp only
    by_cases he : opParam.enum.isEmpty
    · rw [if_pos he]
      unfold mapInsert
      rw [if_pos (by rw [hl]; rfl)]
      rw [List.map_map]
      apply List.map_congr_left
      intro kv _
      by_cases hk : kv.1 = "operation"
      · simp [hk]
      · simp [hk]
    · rw [if_neg he]

theorem buildParametersSchemaAux_error_shape :
    ∀ (l : List YAMLToolParameter) (props : Schema) (req : List String)
      (e : ToolErr), buildParametersSchemaAux props req l = .error e →
      e = .parameterNameRequired ∨ ∃ nm e2, e = .paramWrap nm e2 := by
  intro l
  induction l with
  | nil =>
    intro props req e h
    exact absurd h (by simp [buildParametersSchemaAux])
  | cons p rest ih =>
    intro props req e h
    by_cases hn : p.name = ""
    · simp only [buildParametersSchemaAux, if_pos hn] at h
      injection h with h2
      exact Or.inl h2.symm
    · simp only [buildParametersSchemaAux, if_neg hn] at h
      cases hb : buildParameterSchema p.name p with
      | error e2 =>
        rw [hb] at h
        dsimp only at h
        injection h with h2
        exact Or.inr ⟨p.name, e2, h2.symm⟩
      | ok s =>
        rw [hb] at h
        dsimp only at h
        exact ih _ _ _ h

theorem buildPropertiesFromAll_error_shape :
    ∀ (all : List (String × YAMLToolParameter)) (e : ToolErr),
      buildPropertiesFromAll all = .error e →
      ∃ nm e2, e = .paramWrap nm e2 := by
  intro all
  induction all with
  | nil =>
    intro e h
    exact absurd h (by simp [buildPropertiesFromAll])
  | cons kv rest ih =>
    intro e h
    obtain ⟨n, q⟩ := kv
    simp only [buildPropertiesFromAll] at h
    cases hb : buildParameterSchema n q with
    | error e2 =>
      rw [hb] at h
      dsimp only at h
      injection h with h2
      exact ⟨n, e2, h2.symm⟩
    | ok s =>
      rw [hb] at h
      dsimp only at h
      cases hrest : buildPropertiesFromAll rest with
      | error e2 =>
        rw [hrest] at h
        dsimp only at h
        injection h with h2
        exact h2 ▸ ih e2 hrest
      | ok props2 =>
        rw [hrest] at h
        exact absurd h (by simp)

theorem mem_opsFlatten_iff (ops : List (String × YAMLOperationDefinition))
    (hnd : (ops.map Prod.fst).Nodup) (q : YAMLToolParameter) :
    (q ∈ (sortedOperationNames ops).flatMap
        fun nm => ((ops.lookup nm).getD ⟨[]⟩).parameters) ↔
      ∃ e ∈ ops, q ∈ (Prod.snd e).parameters := by
  rw [List.mem_flatMap]
  constructor
  · rintro ⟨nm, hnm, hq⟩
    have hkeys : nm ∈ ops.map Prod.fst :=
      (sortedOperationNames_perm ops).mem_iff.mp hnm
    cases hlk : ops.lookup nm with
    | none =>
      have hsome := lookup_isSome_iff.mpr hkeys
      rw [hlk] at hsome
      simp at hsome
    | some od =>
      rw [hlk] at hq
      exact ⟨(nm, od), lookup_mem hlk, by simpa using hq⟩
  · rintro ⟨⟨nm, od⟩, he, hq⟩
    refine ⟨nm, ?_, ?_⟩
    · exact (sortedOperationNames_perm ops).mem_iff.mpr
        (List.mem_map.mpr ⟨(nm, od), he, rfl⟩)
    · rw [mem_lookup_nodup hnd he]
      simpa using hq

/-- C6: with operations declared, a parameter name appearing in two places
(base list or some operation list) with two different declared types makes
the schema compilation fail with a conflicting-type error naming that
parameter and two genuinely occurring distinct types; when every repeated
name carries one type, no conflicting-type error is possible and, on
success, the compiled property keys are exactly the union of the base and
operation parameter names. -/
theorem conflictingTypes_spec (y : YAMLToolDefinition)
    (hops : y.operations ≠ [])
    (hkeys : (y.operations.map Prod.fst).Nodup)
    (hbase : ∀ q ∈ y.parameters, q.name ≠ "")
    (hopsn : ∀ e ∈ y.operations, ∀ q ∈ (Prod.snd e).parameters, q.name ≠ "")
    (hn : y.name ≠ "") (hd : y.description ≠ "") :
    ((∃ a b,
        (a ∈ y.parameters ∨ ∃ e ∈ y.operations, a ∈ (Prod.snd e).parameters) ∧
        (b ∈ y.parameters ∨ ∃ e ∈ y.operations, b ∈ (Prod.snd e).parameters) ∧
        a.name = b.name ∧ a.type ≠ b.type) →
      ∃ nm t1 t2, t1 ≠ t2 ∧
        ToToolDefinition (some y) = .error (.conflictingTypes nm t1 t2) ∧
        (∃ a, (a ∈ y.parameters ∨ ∃ e ∈ y.operations, a ∈ (Prod.snd e).parameters) ∧
          a.name = nm ∧ a.type = t1) ∧
        (∃ b, (b ∈ y.parameters ∨ ∃ e ∈ y.operations, b ∈ (Prod.snd e).parameters) ∧
          b.name = nm ∧ b.type = t2))
    ∧ ((∀ a b,
          (a ∈ y.parameters ∨ ∃ e ∈ y.operations, a ∈ (Prod.snd e).parameters) →
          (b ∈ y.parameters ∨ ∃ e ∈ y.operations, b ∈ (Prod.snd e).parameters) →
          a.name = b.name → a.type = b.type) →
        (∀ nm t1 t2,
          ToToolDefinition (some y) ≠ .error (.conflictingTypes nm t1 t2))
        ∧ (∀ t, ToToolDefinition (some y) = .ok t →
            ∀ props, extractProperties t.parameters = some props →
            ∀ k, k ∈ props.map Prod.fst ↔
              ((∃ q ∈ y.parameters, q.name = k) ∨
                ∃ e ∈ y.operations, ∃ q ∈ (Prod.snd e).parameters, q.name = k))) := by
  have hne : y.operations.isEmpty = false := by
    cases hl : y.operations with
    | nil => exact absurd hl hops
    | cons a l => rfl
  have hmemfull : ∀ q : YAMLToolParameter,
      (q ∈ y.parameters ++ (sortedOperationNames y.operations).flatMap
          (fun nm => ((y.operations.lookup nm).getD ⟨[]⟩).parameters)) ↔
        (q ∈ y.parameters ∨ ∃ e ∈ y.operations, q ∈ (Prod.snd e).parameters) := by
    intro q
    rw [List.mem_append, mem_opsFlatten_iff y.operations hkeys q]
  have hu_eq : unionAllParams y.parameters (sortedOperationNames y.operations)
      y.operations =
        addParameterDefinitions []
          (y.parameters ++ (sortedOperationNames y.operations).flatMap
            (fun nm => ((y.operations.lookup nm).getD ⟨[]⟩).parameters)) :=
    unionAllParams_flatten y.parameters (sortedOperationNames y.operations)
      y.operations
  have hnamesfull : ∀ q ∈ y.parameters ++ (sortedOperationNames y.operations).flatMap
      (fun nm => ((y.operations.lookup nm).getD ⟨[]⟩).parameters), q.name ≠ "" := by
    intro q hq
    rcases (hmemfull q).mp hq with h1 | ⟨e, he, h2⟩
    · exact hbase q h1
    · exact hopsn e he q h2
  constructor
  · rintro ⟨a, b, ha, hb, hnm, hnety⟩
    obtain ⟨nm, t1, t2, hne12, heq, hA, hB⟩ :=
      addParameterDefinitions_conflict _ [] hnamesfull (by simp) (by simp)
        ⟨a, b, Or.inr ((hmemfull a).mpr ha), (hmemfull b).mpr hb, hnm, hnety⟩
    refine ⟨nm, t1, t2, hne12, ?_, ?_, ?_⟩
    · simp only [ToToolDefinition, hn, hd, hne, Bool.false_eq_true, if_false]
      rw [hu_eq, heq]
    · obtain ⟨a2, ha2, h1, h2⟩ := hA
      refine ⟨a2, ?_, h1, h2⟩
      rcases ha2 with hm | hf
      · simp at hm
      · exact (hmemfull a2).mp hf
    · obtain ⟨b2, hb2, h1, h2⟩ := hB
      exact ⟨b2, (hmemfull b2).mp hb2, h1, h2⟩
  · intro hcompat
    have hnoconf : ∀ nm t1 t2,
        unionAllParams y.parameters (sortedOperationNames y.operations)
          y.operations ≠ .error (.conflictingTypes nm t1 t2) := by
      intro nm t1 t2 hcon
      rw [hu_eq] at hcon
      obtain ⟨a, b, ha, hb, h1, h2⟩ :=
        addParameterDefinitions_conflict_converse _ [] (by simp) hcon
      apply h2
      refine hcompat a b ?_ ((hmemfull b).mp hb) h1
      rcases ha with hm | hf
      · simp at hm
      · exact (hmemfull a).mp hf
    constructor
    · intro nm t1 t2 hcontra
      simp only [ToToolDefinition, hn, hd, hne, Bool.false_eq_true,
        if_false] at hcontra
      cases hu : unionAllParams y.parameters (sortedOperationNames y.operations)
          y.operations with
      | error e =>
        rw [hu] at hcontra
        dsimp only at hcontra
        injection hcontra with h2
        exact hnoconf nm t1 t2 (h2 ▸ hu)
      | ok m =>
        rw [hu] at hcontra
        dsimp only at hcontra
        cases hp : buildPropertiesFromAll
            (deriveOperationEnum m (sortedOperationNames y.operations)) with
        | error e =>
          rw [hp] at hcontra
          dsimp only at hcontra
          injection hcontra with h2
          obtain ⟨nm2, e2, hshape⟩ := buildPropertiesFromAll_error_shape _ e hp
          rw [hshape] at h2
          exact absurd h2.symm (by simp)
        | ok props =>
          rw [hp] at hcontra
          dsimp only at hcontra
          cases hg : buildParametersSchema y.parameters with
          | error e =>
            rw [hg] at hcontra
            dsimp only at hcontra
            injection hcontra with h2
            rcases buildParametersSchemaAux_error_shape _ _ _ e hg with h3 | ⟨nm2, e2, h3⟩
            · rw [h3] at h2
              exact absurd h2.symm (by simp)
            · rw [h3] at h2
              exact absurd h2.symm (by simp)
          | ok pr =>
            rw [hg] at hcontra
            obtain ⟨P2, GR⟩ := pr
            dsimp only at hcontra
            by_cases hlook : ((deriveOperationEnum m
                (sortedOperationNames y.operations)).lookup "operation").isNone
            · rw [if_pos hlook] at hcontra
              injection hcontra with h2
              exact absurd h2.symm (by simp)
            · rw [if_neg hlook] at hcontra
              exact absurd hcontra (by simp)
    · intro t ht props hprops k
      simp only [ToToolDefinition, hn, hd, hne, Bool.false_eq_true,
        if_false] at ht
      cases hu : unionAllParams y.parameters (sortedOperationNames y.operations)
          y.operations with
      | error e =>
        rw [hu] at ht
        exact absurd ht (by simp)
      | ok m =>
        rw [hu] at ht
        dsimp only at ht
        cases hp : buildPropertiesFromAll
            (deriveOperationEnum m (sortedOperationNames y.operations)) with
        | error e =>
          rw [hp] at ht
          exact absurd ht (by simp)
        | ok P =>
          rw [hp] at ht
          dsimp only at ht
          cases hg : buildParametersSchema y.parameters with
          | error e =>
            rw [hg] at ht
            exact absurd ht (by simp)
          | ok pr =>
            rw [hg] at ht
            obtain ⟨P2, GR⟩ := pr
            dsimp only at ht
            by_cases hlook : ((deriveOperationEnum m
                (sortedOperationNames y.operations)).lookup "operation").isNone
            · rw [if_pos hlook] at ht
              exact absurd ht (by simp)
            · rw [if_neg hlook] at ht
              injection ht with h2
              have hparam : t.parameters = buildObjectSchema P
                  (if containsString GR "operation" = true then GR
                    else GR ++ ["operation"]) := by
                rw [← h2]
              rw [hparam, extractProperties_buildObjectSchema] at hprops
              injection hprops with h3
              rw [← h3]
              have hPkeys : P.map Prod.fst =
                  (deriveOperationEnum m (sortedOperationNames y.operations)).map
                    Prod.fst := buildPropertiesFromAll_keys _ P hp
              rw [hPkeys, deriveOperationEnum_keys]
              rw [← lookup_isSome_iff]
              rw [hu_eq] at hu
              rw [addParameterDefinitions_ok_keys _ [] m hu k]
              constructor
              · rintro (h4 | ⟨q, hq, h5⟩)
                · simp at h4
                · rcases (hmemfull q).mp hq with h6 | ⟨e, he, h6⟩
                  · exact Or.inl ⟨q, h6, h5⟩
                  · exact Or.inr ⟨e, he, q, h6, h5⟩
              · rintro (⟨q, hq, h5⟩ | ⟨e, he, q, hq, h5⟩)
                · exact Or.inr ⟨q, (hmemfull q).mpr (Or.inl hq), h5⟩
                · exact Or.inr ⟨q, (hmemfull q).mpr (Or.inr ⟨e, he, hq⟩), h5⟩

/-- Concrete instantiation of `conflictingTypes_spec`: the path parameter
declared string in the base list and integer in the run operation makes
compilation fail with the conflicting-type error. -/
theorem conflictingTypes_spec_witness :
    ∃ nm t1 t2, t1 ≠ t2 ∧
      ToToolDefinition (some conflictToolDef) =
        .error (.conflictingTypes nm t1 t2) := by
  have h := (conflictingTypes_spec conflictToolDef (by simp [conflictToolDef])
    (by simp [conflictToolDef]) (by decide) (by decide)
    (by decide) (by decide)).1
  obtain ⟨nm, t1, t2, hne12, heq, _, _⟩ := h
    ⟨mkParam "path" "string" "a path" false,
      mkParam "path" "integer" "a path" false,
      Or.inl (by simp [conflictToolDef]),
      Or.inr ⟨("run", ⟨[mkParam "path" "integer" "a path" false]⟩),
        by simp [conflictToolDef], by simp⟩,
      rfl, by decide⟩
  exact ⟨nm, t1, t2, hne12, heq⟩

end Pluginapi
